import Mathlib

/-!
Verification development for the TinyLSMTree durability core: the manifest
log (package `file`) and the engine write path (package `lsm`).

The embedding is shallow: Go's in-place mutation becomes pure state passing,
machine integers become `Nat` with explicit `% 2^w` at the points where the
source truncates (`uint32(len)`, `uint8(change.Level)`), the byte stream of
the MANIFEST file becomes a `List Nat` of bytes, and external collaborators
(the OS file layer, the skip list, the level manager, the WAL codec) become
oracle parameters.  The protobuf package `lsm/pb` is not part of the sources;
per the spec it is an opaque, deterministic, self-describing round-tripping
encoding, and it is modelled as such below.
-/

namespace utils

/-- Magic text of the manifest header, the four bytes of the string WIN!
(`utils.MagicText`). -/
def MagicText : List Nat := [87, 73, 78, 33]

/-- Manifest format version (`utils.MagicVersion`). -/
def MagicVersion : Nat := 1

/-- Absolute deletions threshold before an `addChanges` triggers a rewrite
(`utils.ManifestDeletionsRewriteThreshold`). -/
def ManifestDeletionsRewriteThreshold : Nat := 10000

/-- Ratio of deletions to live tables before an `addChanges` triggers a
rewrite (the constant the source calls the manifest deletions ratio). -/
def ManifestDeletionsRatioConst : Nat := 10

end utils

/-- Big-endian encoding of `n` into `k` bytes, as `binary.BigEndian.PutUintN`
does: only the low `8*k` bits of `n` are represented. -/
def beEnc : Nat → Nat → List Nat
  | 0, _ => []
  | k + 1, n => beEnc k (n / 256) ++ [n % 256]

/-- Big-endian decoding of a byte list, as `binary.BigEndian.UintN` does. -/
def beDec (l : List Nat) : Nat := l.foldl (fun a b => a * 256 + b) 0

/-- Reflected CRC-32C (Castagnoli) polynomial, as used by Go's
`crc32.MakeTable(crc32.Castagnoli)`. -/
def crc32Poly : Nat := 0x82F63B78

/-- One bit step of the reflected CRC-32C computation. -/
def crc32Step (c : Nat) : Nat :=
  if c % 2 = 1 then Nat.xor (c / 2) crc32Poly else c / 2

/-- Fold one data byte into the CRC state. -/
def crc32Byte (c b : Nat) : Nat := crc32Step^[8] (Nat.xor c (b % 256))

/-- CRC-32C checksum of a byte list, the model of
`crc32.Checksum(data, utils.CastagnoliCrcTable)`. -/
def crc32 (data : List Nat) : Nat :=
  Nat.xor (data.foldl crc32Byte 0xFFFFFFFF) 0xFFFFFFFF

namespace pb

/-- Model of `pb.ManifestChange`: table id (uint64), operation
(0 = CREATE, 1 = DELETE), level (uint32), checksum bytes. -/
structure ManifestChange where
  Id : Nat
  Op : Nat
  Level : Nat
  Checksum : List Nat
deriving DecidableEq, Repr

/-- Modelled from the spec: the byte encoding of one `pb.ManifestChange`.
The generated protobuf code (`lsm/pb`) is not among the sources; the spec
treats the encoding as an opaque, deterministic, self-describing binary
contract that round-trips, so a fixed-layout record encoding is used:
one op byte, 8-byte big-endian id, 4-byte big-endian level, 4-byte
big-endian checksum length, then the checksum bytes. -/
def encodeChange (c : ManifestChange) : List Nat :=
  (c.Op % 256) :: (beEnc 8 c.Id ++ beEnc 4 c.Level ++
    beEnc 4 c.Checksum.length ++ c.Checksum)

/-- Modelled from the spec: `Marshal` of a `pb.ManifestChangeSet`, the
concatenation of its changes' encodings. -/
def encodeCS (cs : List ManifestChange) : List Nat :=
  (cs.map encodeChange).flatten

/-- Fuel-indexed decoder for a `pb.ManifestChangeSet` payload; the fuel is
an upper bound on the recursion depth and is irrelevant once it exceeds the
number of bytes. -/
def decodeCSAux : Nat → List Nat → Option (List ManifestChange)
  | 0, _ => none
  | _ + 1, [] => some []
  | fuel + 1, b :: bs =>
    if bs.length < 16 then none
    else
      let id := beDec (bs.take 8)
      let level := beDec ((bs.drop 8).take 4)
      let clen := beDec ((bs.drop 12).take 4)
      if (bs.drop 16).length < clen then none
      else
        match decodeCSAux fuel ((bs.drop 16).drop clen) with
        | some rest => some (⟨id, b, level, (bs.drop 16).take clen⟩ :: rest)
        | none => none

/-- Modelled from the spec: `Unmarshal` of a `pb.ManifestChangeSet`. -/
def decodeCS (bs : List Nat) : Option (List ManifestChange) :=
  decodeCSAux (bs.length + 1) bs

/-- Well-formed change per the spec's data model: the operation is CREATE or
DELETE, the level fits in a u8, the id in a u64 and the checksum length in
a u32. -/
def wfChange (c : ManifestChange) : Prop :=
  (c.Op = 0 ∨ c.Op = 1) ∧ c.Level < 256 ∧ c.Id < 2 ^ 64 ∧
    c.Checksum.length < 2 ^ 32

instance (c : ManifestChange) : Decidable (wfChange c) := by
  unfold wfChange
  infer_instance

end pb

namespace file

open pb

/-- Errors surfaced by the manifest log (the closed set of §7 of the spec
that the source's error values correspond to). -/
inductive Err where
  /-- Header could not be read in full or the magic text mismatched. -/
  | badMagic : Err
  /-- Header version differs from `utils.MagicVersion`. -/
  | notSupportVersion : Err
  /-- Stored frame CRC differs from the payload's CRC-32C. -/
  | badChecksum : Err
  /-- Frame payload promised by the length prefix is incomplete, or the
  payload does not decode to a ChangeSet. -/
  | truncatedPayload : Err
  /-- Payload bytes do not decode to a ChangeSet. -/
  | decodeFail : Err
  /-- CREATE of a table id already present in `Tables`. -/
  | tableExists (id : Nat) : Err
  /-- DELETE of a table id absent from `Tables`. -/
  | removesNonExisting (id : Nat) : Err
  /-- Operation tag other than CREATE or DELETE. -/
  | wrongOp : Err
deriving DecidableEq, Repr

/-- Model of `file.TableManifest`: level (uint8) and checksum of one table. -/
structure TableManifest where
  Level : Nat
  Checksum : List Nat
deriving DecidableEq, Repr

/-- Model of `file.Manifest`.  `Levels` is the per-level id sets (each Go
`map[uint64]struct{}` becomes a duplicate-free list), `Tables` is the
id-to-table map (the Go map becomes an association list with distinct keys
in reachable states). -/
structure Manifest where
  Levels : List (List Nat)
  Tables : List (Nat × TableManifest)
  Creations : Nat
  Deletions : Nat
deriving DecidableEq, Repr

/-- Model of `file.createNewManifest`. -/
def createNewManifest : Manifest :=
  { Levels := [], Tables := [], Creations := 0, Deletions := 0 }

/-- Insertion into a Go map-backed set: a no-op when already present. -/
def setInsert (s : List Nat) (id : Nat) : List Nat :=
  if id ∈ s then s else s ++ [id]

/-- Point update of a list; out-of-range indices are untouched. -/
def modifyAt (ls : List (List Nat)) (i : Nat) (f : List Nat → List Nat) :
    List (List Nat) :=
  ls.take i ++ (match ls[i]? with
    | some s => [f s]
    | none => []) ++ ls.drop (i + 1)

/-- The extension loop of the CREATE branch: append empty level sets while
`len(mf.Levels) <= level`. -/
def extendLevels (ls : List (List Nat)) (level : Nat) : List (List Nat) :=
  ls ++ List.replicate (level + 1 - ls.length) []

/-- Model of `file.applyManifestChange`.  Returns the (possibly updated)
manifest together with an error; on error the manifest is returned as it
was, matching the Go early returns.  `uint8(change.Level)` is the `% 256`. -/
def applyManifestChange (m : Manifest) (c : ManifestChange) :
    Manifest × Option Err :=
  if c.Op = 0 then
    match m.Tables.lookup c.Id with
    | some _ => (m, some (.tableExists c.Id))
    | none =>
      ({ Levels := modifyAt (extendLevels m.Levels c.Level) c.Level
            (fun s => setInsert s c.Id),
         Tables := m.Tables ++ [(c.Id, ⟨c.Level % 256, c.Checksum⟩)],
         Creations := m.Creations + 1,
         Deletions := m.Deletions }, none)
  else if c.Op = 1 then
    match m.Tables.lookup c.Id with
    | none => (m, some (.removesNonExisting c.Id))
    | some tm =>
      ({ Levels := modifyAt m.Levels tm.Level (fun s => s.filter (· ≠ c.Id)),
         Tables := m.Tables.filter (fun p => p.1 ≠ c.Id),
         Creations := m.Creations,
         Deletions := m.Deletions + 1 }, none)
  else (m, some .wrongOp)

/-- Model of `file.applyChangeSet`: changes applied in order, stopping at the
first failure; the manifest accumulated so far is kept (the Go code mutates
the shared manifest in place). -/
def applyChangeSet (m : Manifest) : List ManifestChange → Manifest × Option Err
  | [] => (m, none)
  | c :: cs =>
    match applyManifestChange m c with
    | (m', none) => applyChangeSet m' cs
    | (m', some e) => (m', some e)

/-- Model of `file.newCreateChange`. -/
def newCreateChange (sstId level : Nat) (checksum : List Nat) :
    ManifestChange :=
  { Id := sstId, Op := 0, Level := level, Checksum := checksum }

/-- Model of `Manifest.asChanges`: one CREATE per tracked table. -/
def asChanges (m : Manifest) : List ManifestChange :=
  m.Tables.map (fun p => newCreateChange p.1 p.2.Level p.2.Checksum)

/-- One manifest frame: 4-byte big-endian payload length, 4-byte big-endian
CRC-32C of the payload, then the payload (`uint32` truncation is the
`% 2^32` that `beEnc 4` performs). -/
def frameBytes (payload : List Nat) : List Nat :=
  beEnc 4 payload.length ++ beEnc 4 (crc32 payload) ++ payload

/-- The 8-byte manifest header: magic text then big-endian version. -/
def magicHeader : List Nat := utils.MagicText ++ beEnc 4 utils.MagicVersion

/-- The byte content written by `file.createFileAndRewrite`: the header
followed by one frame whose payload is the CREATE-only snapshot of `m`. -/
def createFileAndRewriteBytes (m : Manifest) : List Nat :=
  magicHeader ++ frameBytes (encodeCS (asChanges m))

/-- Model of `file.ManifestFile`: the in-memory manifest plus the bytes of
the on-disk MANIFEST file (the mutex and file handle have no logical
content). -/
structure ManifestFile where
  manifest : Manifest
  fileBytes : List Nat
deriving DecidableEq, Repr

/-- Model of `ManifestFile.rewrite`: replace the file with a snapshot of the
current manifest, set `Creations` to the live-table count computed by
`createFileAndRewrite` and reset `Deletions` (I/O is abstracted as
succeeding). -/
def rewrite (mf : ManifestFile) : ManifestFile :=
  { manifest := { mf.manifest with
      Creations := mf.manifest.Tables.length, Deletions := 0 },
    fileBytes := createFileAndRewriteBytes mf.manifest }

/-- Does `addChanges` take the rewrite branch?  The Go comparison is on
`int`s, hence the `Int` casts. -/
def rewriteCond (m : Manifest) : Bool :=
  decide (utils.ManifestDeletionsRewriteThreshold < m.Deletions) &&
  decide ((m.Deletions : Int) >
    (utils.ManifestDeletionsRatioConst : Int) *
      ((m.Creations : Int) - (m.Deletions : Int)))

/-- Model of `ManifestFile.addChanges`: marshal, apply to the in-memory
manifest (kept even when partially applied, as in the source), then either
rewrite or append one frame; fsync is abstracted as succeeding. -/
def addChanges (mf : ManifestFile) (changesParam : List ManifestChange) :
    ManifestFile × Option Err :=
  let buf := encodeCS changesParam
  match applyChangeSet mf.manifest changesParam with
  | (m', some e) => ({ mf with manifest := m' }, some e)
  | (m', none) =>
    if rewriteCond m' then
      (rewrite { manifest := m', fileBytes := mf.fileBytes }, none)
    else
      ({ manifest := m', fileBytes := mf.fileBytes ++ frameBytes buf }, none)

/-- Model of `file.TableMeta`: id and checksum of an SST. -/
structure TableMeta where
  ID : Nat
  Checksum : List Nat
deriving DecidableEq, Repr

/-- Model of `ManifestFile.AddTableMeta`: the named error return is never
assigned from the `addChanges` call, so the returned error is always `none`. -/
def AddTableMeta (mf : ManifestFile) (levelNum : Nat) (t : TableMeta) :
    ManifestFile × Option Err :=
  ((addChanges mf [newCreateChange t.ID levelNum t.Checksum]).1, none)

/-- The Scenario A history of the spec: CREATE id 1 at level 0, CREATE id 2
at level 0, DELETE id 1, each as its own ChangeSet. -/
def scenarioA : List (List pb.ManifestChange) :=
  [[⟨1, 0, 0, []⟩], [⟨2, 0, 0, []⟩], [⟨1, 1, 0, []⟩]]

/-- Fuel-indexed model of the frame loop of `file.ReplayManifestFile`.
Each iteration records the current offset, stops cleanly when fewer than 8
bytes remain (clean end of stream or end of stream inside the length+crc
prefix), errors when the payload is shorter than the length prefix
promises, checks the CRC, decodes and applies the ChangeSet.  The fuel is
irrelevant once it exceeds the number of bytes. -/
def replayAux : Nat → Manifest → Nat → List Nat → Except Err (Manifest × Nat)
  | 0, _, _, _ => .error .decodeFail
  | fuel + 1, m, off, bs =>
    if bs.length < 8 then .ok (m, off)
    else
      let len := beDec (bs.take 4)
      let crcStored := beDec ((bs.drop 4).take 4)
      let payload := (bs.drop 8).take len
      if payload.length < len then .error .truncatedPayload
      else if crc32 payload ≠ crcStored then .error .badChecksum
      else
        match decodeCS payload with
        | none => .error .decodeFail
        | some cs =>
          match applyChangeSet m cs with
          | (_, some e) => .error e
          | (m', none) => replayAux fuel m' (off + 8 + len) (bs.drop (8 + len))

/-- Model of `file.ReplayManifestFile`: validate the 8-byte header, then run
the frame loop from offset 8 on the remaining bytes. -/
def ReplayManifestFile (bs : List Nat) : Except Err (Manifest × Nat) :=
  if bs.length < 8 then .error .badMagic
  else if bs.take 4 ≠ utils.MagicText then .error .badMagic
  else if beDec ((bs.drop 4).take 4) ≠ utils.MagicVersion then
    .error .notSupportVersion
  else replayAux (bs.length + 1) createNewManifest 8 (bs.drop 8)

/-- Model of `file.OpenManifestFile` when the MANIFEST file is absent.
Modelled from the spec: the bootstrap succeeds, producing an empty manifest
and a file holding the header plus one empty-snapshot frame.  The
`utils.CondPanic` assertion helper called on this path is not among the
sources; the spec states that the fresh-store bootstrap succeeds, so it is
modelled as passing here. -/
def OpenManifestFileFresh : ManifestFile :=
  { manifest := createNewManifest,
    fileBytes := createFileAndRewriteBytes createNewManifest }

/-- Model of `file.OpenManifestFile` when the MANIFEST file exists: replay
it, truncate the file to the returned offset, seek to end of file.  The
returned `Nat` is the resulting write position. -/
def OpenManifestFileExisting (bs : List Nat) :
    Except Err (ManifestFile × Nat) :=
  match ReplayManifestFile bs with
  | .error e => .error e
  | .ok (m, off) =>
    .ok ({ manifest := m, fileBytes := bs.take off }, (bs.take off).length)

/-- Repeated `AddChanges` calls, stopping at the first failure: the
histories claim C1 quantifies over. -/
def runAddChanges (mf : ManifestFile) :
    List (List ManifestChange) → ManifestFile × Option Err
  | [] => (mf, none)
  | cs :: rest =>
    match addChanges mf cs with
    | (mf', none) => runAddChanges mf' rest
    | (mf', some e) => (mf', some e)

/-- Folding `applyChangeSet` over a list of ChangeSets, stopping at the
first failure: the pure semantics of replaying a sequence of frames. -/
def runChangeSets (m : Manifest) :
    List (List ManifestChange) → Manifest × Option Err
  | [] => (m, none)
  | cs :: rest =>
    match applyChangeSet m cs with
    | (m', none) => runChangeSets m' rest
    | (m', some e) => (m', some e)

/-- Byte content of a list of frames, one per ChangeSet. -/
def framesOf (css : List (List ManifestChange)) : List Nat :=
  (css.map (fun cs => frameBytes (encodeCS cs))).flatten

/-- The id set recorded at level `l`, empty when `l` is beyond the levels
list. -/
def levelSet (m : Manifest) (l : Nat) : List Nat := m.Levels.getD l []

/-- Extensional agreement of two manifests: same table map, same id set at
every level, same counters.  After a rewrite the replayed manifest may have
fewer trailing empty levels than the in-memory one, so agreement is stated
on lookups and memberships. -/
def MEquiv (m1 m2 : Manifest) : Prop :=
  (∀ id, m1.Tables.lookup id = m2.Tables.lookup id) ∧
  (∀ l id, id ∈ levelSet m1 l ↔ id ∈ levelSet m2 l) ∧
  m1.Creations = m2.Creations ∧ m1.Deletions = m2.Deletions

/-- Reachable-state invariant of a manifest: distinct table keys, all stored
fields within machine bounds, and the two directions of the
spec's Tables-Levels consistency invariant. -/
def wfManifest (m : Manifest) : Prop :=
  (m.Tables.map Prod.fst).Nodup ∧
  (∀ p ∈ m.Tables, p.2.Level < 256 ∧ p.1 < 2 ^ 64 ∧
    p.2.Checksum.length < 2 ^ 32 ∧ p.1 ∈ levelSet m p.2.Level) ∧
  (∀ l i, i ∈ levelSet m l → ∃ tm, m.Tables.lookup i = some tm ∧
    tm.Level = l)

/-- Total encoded size of a history of ChangeSets. -/
def totalEncLen (hist : List (List ManifestChange)) : Nat :=
  (hist.map (fun cs => (encodeCS cs).length)).sum

/-- The durable-file invariant: the manifest is well formed and the file is
the header followed by frames of well-formed ChangeSets whose replay
succeeds and agrees extensionally with the in-memory manifest. -/
def GoodFile (mf : ManifestFile) : Prop :=
  wfManifest mf.manifest ∧
  ∃ css mR,
    (∀ cs ∈ css, (∀ c ∈ cs, wfChange c) ∧ (encodeCS cs).length < 2 ^ 32) ∧
    mf.fileBytes = magicHeader ++ framesOf css ∧
    runChangeSets createNewManifest css = (mR, none) ∧
    wfManifest mR ∧ MEquiv mR mf.manifest

end file

namespace lsm

/-- Model of `lsm.memTable`: the WAL file id and the WAL's byte size; the
skip list and WAL contents are external collaborators. -/
structure memTable where
  fid : Nat
  walSize : Nat
deriving DecidableEq, Repr

/-- Model of the engine's write-surface state: the active memtable, the
immutable queue (oldest first) and the file-id allocator
(`lsm.levels.maxFID`). -/
structure LSM where
  mem : memTable
  immutables : List memTable
  maxFID : Nat
deriving DecidableEq, Repr

/-- The flush loop of `lsm.Set`: flush and close each queued immutable in
order, stopping at the first flush failure; returns the list of memtables
flushed (and closed) together with the error of the failing flush, if any.
The level manager's flush is the oracle `flushRes`. -/
def flushLoop {ε : Type} (flushRes : memTable → Option ε) :
    List memTable → List memTable × Option ε
  | [] => ([], none)
  | mt :: rest =>
    match flushRes mt with
    | some e => ([], some e)
    | none =>
      match flushLoop flushRes rest with
      | (fl, r) => (mt :: fl, r)

/-- Model of `lsm.Set`.  `opt` is `MemTableSize`, `esz` the estimated WAL
codec size of the entry, `setRes` the oracle outcome of the active
memtable's `set` (WAL append plus index insert), `flushRes` the level
manager flush oracle.  Returns the new state, the returned error, and the
memtables flushed-and-closed during the call (in flush order). -/
def Set {ε : Type} (opt : Nat) (st : LSM) (esz : Nat) (setRes : Option ε)
    (flushRes : memTable → Option ε) : LSM × Option ε × List memTable :=
  let st1 :=
    if opt < st.mem.walSize + esz then
      { mem := { fid := st.maxFID + 1, walSize := 0 },
        immutables := st.immutables ++ [st.mem],
        maxFID := st.maxFID + 1 }
    else st
  match setRes with
  | some e => (st1, some e, [])
  | none =>
    let st2 := { st1 with
      mem := { st1.mem with walSize := st1.mem.walSize + esz } }
    match flushLoop flushRes st2.immutables with
    | (fl, some e) => (st2, some e, fl)
    | (fl, none) => ({ st2 with immutables := [] }, none, fl)

/-- Scan of the immutable queue in `lsm.Get`: indices from `len-1` down to
`0`, returning the first hit. -/
def revFindEntry {α : Type} : List (Option α) → Option α
  | [] => none
  | x :: xs =>
    match revFindEntry xs with
    | some e => some e
    | none => x

/-- Model of `lsm.Get`: the active memtable's answer, else the newest-first
scan of the immutable queue, else the level manager's answer.  The three
tiers' lookups are oracles. -/
def Get {α : Type} (active : Option α) (imms : List (Option α))
    (lvlRes : Option α) : Option α :=
  match active with
  | some e => some e
  | none =>
    match revFindEntry imms with
    | some e => some e
    | none => lvlRes

/-- Model of `lsm.recovery` together with the subsequent `NewMemtable`:
given the previously-known allocator value, the ids of the `.wal` files
found in the working directory and an oracle for each recovered memtable's
skip-list size after replay, return the active memtable's fid, the
immutable queue and the final allocator value.  The ids are replayed in
ascending order, empty memtables are discarded, the allocator is advanced
to the maximum observed id, and `NewMemtable` increments it. -/
def recovery (prevMax : Nat) (walFids : List Nat) (sizeOf : Nat → Nat) :
    Nat × List Nat × Nat :=
  let maxFid := walFids.foldl (fun a b => max a b) prevMax
  let sorted := List.insertionSort (· ≤ ·) walFids
  let imms := sorted.filter (fun fid => sizeOf fid != 0)
  (maxFid + 1, imms, maxFid + 1)

end lsm

/-! ### Byte-level lemmas -/

theorem beEnc_length (k n : Nat) : (beEnc k n).length = k := by
  induction k generalizing n with
  | zero => rfl
  | succ k ih => simp [beEnc, ih]

theorem beDec_append (xs : List Nat) (b : Nat) :
    beDec (xs ++ [b]) = beDec xs * 256 + b := by
  simp [beDec, List.foldl_append]

theorem beDec_beEnc (k n : Nat) : beDec (beEnc k n) = n % 2 ^ (8 * k) := by
  induction k generalizing n with
  | zero => simp [beEnc, beDec, Nat.mod_one]
  | succ k ih =>
    rw [beEnc, beDec_append, ih]
    conv_rhs => rw [show 8 * (k + 1) = 8 * k + 8 by ring, pow_add,
      show (2 : Nat) ^ 8 = 256 by norm_num, Nat.mul_comm, Nat.mod_mul]
    ring

theorem beDec_beEnc_of_lt (k n : Nat) (h : n < 2 ^ (8 * k)) :
    beDec (beEnc k n) = n := by
  rw [beDec_beEnc, Nat.mod_eq_of_lt h]

theorem take_append_of_length (l₁ l₂ : List Nat) (n : Nat)
    (h : l₁.length = n) : (l₁ ++ l₂).take n = l₁ := by
  subst h; simp

theorem drop_append_of_length (l₁ l₂ : List Nat) (n : Nat)
    (h : l₁.length = n) : (l₁ ++ l₂).drop n = l₂ := by
  subst h; simp

/-! ### Decoder lemmas: fuel irrelevance and round trip -/

namespace pb

theorem decodeCSAux_congr :
    ∀ (n f1 f2 : Nat) (bs : List Nat), bs.length ≤ n →
      bs.length < f1 → bs.length < f2 →
      decodeCSAux f1 bs = decodeCSAux f2 bs := by
  intro n
  induction n with
  | zero =>
    intro f1 f2 bs hb h1 h2
    cases bs with
    | nil =>
      cases f1 with
      | zero => omega
      | succ f1 =>
        cases f2 with
        | zero => omega
        | succ f2 => rfl
    | cons b bs => simp at hb
  | succ n ih =>
    intro f1 f2 bs hb h1 h2
    cases bs with
    | nil =>
      cases f1 with
      | zero => omega
      | succ f1 =>
        cases f2 with
        | zero => omega
        | succ f2 => rfl
    | cons b bs =>
      cases f1 with
      | zero => simp at h1
      | succ f1 =>
        cases f2 with
        | zero => simp at h2
        | succ f2 =>
          simp only [decodeCSAux]
          by_cases hlen : bs.length < 16
          · simp [hlen]
          · simp only [if_neg hlen]
            have hrec := ih f1 f2 ((bs.drop 16).drop (beDec ((bs.drop 12).take 4)))
              (by simp at hb ⊢; omega)
              (by simp at h1 ⊢; omega)
              (by simp at h2 ⊢; omega)
            split
            · rfl
            · rw [hrec]

theorem decodeCSAux_exact (b : Nat) (idB lvB clB ck rest : List Nat)
    (hid : idB.length = 8) (hlv : lvB.length = 4) (hcl : clB.length = 4)
    (hclv : beDec clB = ck.length) (f : Nat)
    (hf : (idB ++ (lvB ++ (clB ++ (ck ++ rest)))).length < f + 1) :
    decodeCSAux (f + 1) (b :: (idB ++ (lvB ++ (clB ++ (ck ++ rest))))) =
      match decodeCS rest with
      | some cs => some (⟨beDec idB, b, beDec lvB, ck⟩ :: cs)
      | none => none := by
  have hT8 : (idB ++ (lvB ++ (clB ++ (ck ++ rest)))).take 8 = idB :=
    take_append_of_length _ _ _ hid
  have hTd8 : (idB ++ (lvB ++ (clB ++ (ck ++ rest)))).drop 8 =
      lvB ++ (clB ++ (ck ++ rest)) := drop_append_of_length _ _ _ hid
  have hTd8t : ((idB ++ (lvB ++ (clB ++ (ck ++ rest)))).drop 8).take 4 = lvB := by
    rw [hTd8]; exact take_append_of_length _ _ _ hlv
  have hTd12 : (idB ++ (lvB ++ (clB ++ (ck ++ rest)))).drop 12 =
      clB ++ (ck ++ rest) := by
    have h1 : (12 : Nat) = 8 + 4 := by norm_num
    rw [h1, ← List.drop_drop, hTd8]
    exact drop_append_of_length _ _ _ hlv
  have hTd12t : ((idB ++ (lvB ++ (clB ++ (ck ++ rest)))).drop 12).take 4 = clB := by
    rw [hTd12]; exact take_append_of_length _ _ _ hcl
  have hTd16 : (idB ++ (lvB ++ (clB ++ (ck ++ rest)))).drop 16 = ck ++ rest := by
    have h1 : (16 : Nat) = 12 + 4 := by norm_num
    rw [h1, ← List.drop_drop, hTd12]
    exact drop_append_of_length _ _ _ hcl
  have hTlen : (idB ++ (lvB ++ (clB ++ (ck ++ rest)))).length =
      16 + (ck.length + rest.length) := by
    simp [hid, hlv, hcl]; omega
  simp only [decodeCSAux]
  rw [if_neg (by rw [hTlen]; omega)]
  rw [hT8, hTd8t, hTd12t, hTd16, hclv]
  rw [if_neg (by simp)]
  rw [drop_append_of_length ck rest ck.length rfl,
    take_append_of_length ck rest ck.length rfl]
  have hrec : decodeCSAux f rest = decodeCS rest := by
    refine decodeCSAux_congr rest.length f (rest.length + 1) rest le_rfl ?_ ?_
    · rw [hTlen] at hf; omega
    · omega
  rw [hrec]

theorem decodeCS_cons (c : ManifestChange) (rest : List Nat)
    (hop : c.Op < 256) (hid : c.Id < 2 ^ 64) (hlv : c.Level < 2 ^ 32)
    (hcl : c.Checksum.length < 2 ^ 32) :
    decodeCS (encodeChange c ++ rest) = (decodeCS rest).map (c :: ·) := by
  have hEnc : encodeChange c ++ rest =
      (c.Op % 256) :: (beEnc 8 c.Id ++ (beEnc 4 c.Level ++
        (beEnc 4 c.Checksum.length ++ (c.Checksum ++ rest)))) := by
    simp [encodeChange, List.append_assoc]
  rw [decodeCS, hEnc, List.length_cons]
  rw [decodeCSAux_exact (c.Op % 256) _ _ _ _ rest (beEnc_length 8 c.Id)
    (beEnc_length 4 c.Level) (beEnc_length 4 c.Checksum.length)
    (beDec_beEnc_of_lt 4 c.Checksum.length (by simpa using hcl))
    _ (by omega)]
  rw [beDec_beEnc_of_lt 8 c.Id (by simpa using hid),
    beDec_beEnc_of_lt 4 c.Level (by simpa using hlv),
    Nat.mod_eq_of_lt hop]
  cases decodeCS rest <;> rfl

theorem encodeCS_cons (c : ManifestChange) (cs : List ManifestChange) :
    encodeCS (c :: cs) = encodeChange c ++ encodeCS cs := by
  simp [encodeCS]

theorem encodeChange_length (c : ManifestChange) :
    (encodeChange c).length = 17 + c.Checksum.length := by
  simp [encodeChange, beEnc_length]; omega

theorem decodeCS_encodeCS (cs : List ManifestChange)
    (h : ∀ c ∈ cs, wfChange c) : decodeCS (encodeCS cs) = some cs := by
  induction cs with
  | nil => rfl
  | cons c cs ih =>
    obtain ⟨hop, hlv, hid, hcl⟩ := h c (by simp)
    have hop' : c.Op < 256 := by rcases hop with h | h <;> omega
    rw [encodeCS_cons, decodeCS_cons c _ hop' hid (by omega) hcl,
      ih (fun d hd => h d (by simp [hd]))]
    rfl

end pb

/-! ### Association list and level set lemmas -/

namespace file

open pb

theorem lookup_cons (a k : Nat) (tm : TableManifest)
    (tbl : List (Nat × TableManifest)) :
    ((k, tm) :: tbl).lookup a = if a = k then some tm else tbl.lookup a := by
  by_cases h : a = k
  · simp [List.lookup, h]
  · have hb : (a == k) = false := by simp [h]
    simp [List.lookup, hb, h]

theorem lookup_append_of_none (tbl1 tbl2 : List (Nat × TableManifest))
    (j : Nat) (h : tbl1.lookup j = none) :
    (tbl1 ++ tbl2).lookup j = tbl2.lookup j := by
  induction tbl1 with
  | nil => rfl
  | cons q tbl1 ih =>
    rw [List.cons_append, show q = (q.1, q.2) from rfl, lookup_cons]
    rw [show q = (q.1, q.2) from rfl, lookup_cons] at h
    by_cases hj : j = q.1
    · simp [hj] at h
    · simp only [if_neg hj] at h ⊢
      exact ih h

theorem lookup_append_of_some (tbl1 tbl2 : List (Nat × TableManifest))
    (j : Nat) (v : TableManifest) (h : tbl1.lookup j = some v) :
    (tbl1 ++ tbl2).lookup j = some v := by
  induction tbl1 with
  | nil => simp [List.lookup] at h
  | cons q tbl1 ih =>
    rw [List.cons_append, show q = (q.1, q.2) from rfl, lookup_cons]
    rw [show q = (q.1, q.2) from rfl, lookup_cons] at h
    by_cases hj : j = q.1
    · simpa [hj] using h
    · simp only [if_neg hj] at h ⊢
      exact ih h

theorem lookup_singleton (j k : Nat) (tm : TableManifest) :
    ([(k, tm)] : List (Nat × TableManifest)).lookup j =
      if j = k then some tm else none := by
  rw [lookup_cons]; rfl

theorem lookup_filter_ne (tbl : List (Nat × TableManifest)) (i j : Nat) :
    (tbl.filter (fun p => p.1 ≠ i)).lookup j =
      if j = i then none else tbl.lookup j := by
  induction tbl with
  | nil => simp [List.lookup]
  | cons q tbl ih =>
    by_cases hq : q.1 = i
    · rw [show q = (q.1, q.2) from rfl]
      rw [List.filter_cons_of_neg (by simp [hq])]
      rw [ih, lookup_cons]
      by_cases hj : j = i
      · simp [hj]
      · simp only [if_neg hj]
        have : ¬ j = q.1 := by rw [hq]; exact hj
        simp [this]
    · rw [show q = (q.1, q.2) from rfl]
      rw [List.filter_cons_of_pos (by simp [hq])]
      rw [lookup_cons, ih, lookup_cons]
      by_cases hj : j = q.1
      · have hji : ¬ j = i := by rw [hj]; exact hq
        simp [hj, hji, hq]
      · simp [hj]

theorem mem_setInsert (s : List Nat) (id x : Nat) :
    x ∈ setInsert s id ↔ x ∈ s ∨ x = id := by
  by_cases h : id ∈ s
  · simp only [setInsert, if_pos h]
    constructor
    · exact Or.inl
    · rintro (hx | rfl)
      · exact hx
      · exact h
  · simp [setInsert, if_neg h]

theorem modifyAt_nil (i : Nat) (f : List Nat → List Nat) :
    modifyAt [] i f = [] := by
  simp [modifyAt]

theorem modifyAt_zero (x : List Nat) (ls : List (List Nat))
    (f : List Nat → List Nat) : modifyAt (x :: ls) 0 f = f x :: ls := by
  simp [modifyAt]

theorem modifyAt_succ (x : List Nat) (ls : List (List Nat)) (i : Nat)
    (f : List Nat → List Nat) :
    modifyAt (x :: ls) (i + 1) f = x :: modifyAt ls i f := by
  simp [modifyAt]

theorem getD_modifyAt (ls : List (List Nat)) (i : Nat)
    (f : List Nat → List Nat) (hi : i < ls.length) (l : Nat) :
    (modifyAt ls i f).getD l [] =
      if l = i then f (ls.getD i []) else ls.getD l [] := by
  induction ls generalizing i l with
  | nil => simp at hi
  | cons x ls ih =>
    cases i with
    | zero =>
      rw [modifyAt_zero]
      cases l with
      | zero => simp
      | succ l => simp
    | succ i =>
      rw [modifyAt_succ]
      cases l with
      | zero => simp
      | succ l =>
        have hi' : i < ls.length := by simp at hi; omega
        have := ih i hi' l
        simp only [List.getD_cons_succ]
        rw [this]
        by_cases h : l = i
        · simp [h]
        · simp [h]

theorem modifyAt_oob (ls : List (List Nat)) (i : Nat)
    (f : List Nat → List Nat) (hi : ls.length ≤ i) : modifyAt ls i f = ls := by
  have h1 : ls.take i = ls := List.take_of_length_le hi
  have h2 : ls[i]? = none := by
    rw [List.getElem?_eq_none_iff]; exact hi
  have h3 : ls.drop (i + 1) = [] := List.drop_eq_nil_of_le (by omega)
  simp [modifyAt, h1, h2, h3]

theorem length_extendLevels (ls : List (List Nat)) (level : Nat) :
    (extendLevels ls level).length = max ls.length (level + 1) := by
  simp [extendLevels]; omega

theorem getD_extendLevels (ls : List (List Nat)) (level l : Nat) :
    (extendLevels ls level).getD l [] = ls.getD l [] := by
  rw [List.getD_eq_getElem?_getD, List.getD_eq_getElem?_getD]
  unfold extendLevels
  by_cases h : l < ls.length
  · rw [List.getElem?_append_left h]
  · rw [List.getElem?_append_right (by omega), List.getElem?_replicate]
    rw [List.getElem?_eq_none_iff.mpr (by omega)]
    by_cases h2 : l - ls.length < level + 1 - ls.length <;> simp [h2]

/-! ### Characterization of applying one change -/

theorem applyCreate_eq (m : Manifest) (c : ManifestChange) (hop : c.Op = 0)
    (h : m.Tables.lookup c.Id = none) :
    applyManifestChange m c =
      ({ Levels := modifyAt (extendLevels m.Levels c.Level) c.Level
            (fun s => setInsert s c.Id),
         Tables := m.Tables ++ [(c.Id, ⟨c.Level % 256, c.Checksum⟩)],
         Creations := m.Creations + 1,
         Deletions := m.Deletions }, none) := by
  simp [applyManifestChange, hop, h]

theorem applyCreate_err (m : Manifest) (c : ManifestChange) (hop : c.Op = 0)
    (tm : TableManifest) (h : m.Tables.lookup c.Id = some tm) :
    applyManifestChange m c = (m, some (.tableExists c.Id)) := by
  simp [applyManifestChange, hop, h]

theorem applyDelete_eq (m : Manifest) (c : ManifestChange)
    (tm : TableManifest) (hop : c.Op = 1)
    (h : m.Tables.lookup c.Id = some tm) :
    applyManifestChange m c =
      ({ Levels := modifyAt m.Levels tm.Level (fun s => s.filter (· ≠ c.Id)),
         Tables := m.Tables.filter (fun p => p.1 ≠ c.Id),
         Creations := m.Creations,
         Deletions := m.Deletions + 1 }, none) := by
  have h0 : ¬ c.Op = 0 := by omega
  simp [applyManifestChange, h0, hop, h]

theorem applyDelete_err (m : Manifest) (c : ManifestChange) (hop : c.Op = 1)
    (h : m.Tables.lookup c.Id = none) :
    applyManifestChange m c = (m, some (.removesNonExisting c.Id)) := by
  have h0 : ¬ c.Op = 0 := by omega
  simp [applyManifestChange, h0, hop, h]

theorem applyOther_err (m : Manifest) (c : ManifestChange) (h0 : ¬ c.Op = 0)
    (h1 : ¬ c.Op = 1) : applyManifestChange m c = (m, some .wrongOp) := by
  simp [applyManifestChange, h0, h1]

theorem applyManifestChange_err (m : Manifest) (c : ManifestChange)
    (m' : Manifest) (e : Err) (h : applyManifestChange m c = (m', some e)) :
    m' = m := by
  by_cases h0 : c.Op = 0
  · cases hl : m.Tables.lookup c.Id with
    | none => rw [applyCreate_eq m c h0 hl] at h; simp at h
    | some tm => rw [applyCreate_err m c h0 tm hl] at h; simp at h; exact h.1.symm
  · by_cases h1 : c.Op = 1
    · cases hl : m.Tables.lookup c.Id with
      | none => rw [applyDelete_err m c h1 hl] at h; simp at h; exact h.1.symm
      | some tm => rw [applyDelete_eq m c tm h1 hl] at h; simp at h
    · rw [applyOther_err m c h0 h1] at h; simp at h; exact h.1.symm

theorem levelSet_create (m : Manifest) (c : ManifestChange) (hop : c.Op = 0)
    (h : m.Tables.lookup c.Id = none) (l : Nat) :
    levelSet (applyManifestChange m c).1 l =
      if l = c.Level then setInsert (levelSet m c.Level) c.Id
      else levelSet m l := by
  rw [applyCreate_eq m c hop h]
  simp only [levelSet]
  have hlen : c.Level < (extendLevels m.Levels c.Level).length := by
    rw [length_extendLevels]; omega
  rw [getD_modifyAt _ _ _ hlen l]
  simp only [getD_extendLevels]

theorem levelSet_delete (m : Manifest) (c : ManifestChange)
    (tm : TableManifest) (hop : c.Op = 1)
    (h : m.Tables.lookup c.Id = some tm) (l : Nat) :
    levelSet (applyManifestChange m c).1 l =
      if l = tm.Level then (levelSet m tm.Level).filter (· ≠ c.Id)
      else levelSet m l := by
  rw [applyDelete_eq m c tm hop h]
  simp only [levelSet]
  by_cases hr : tm.Level < m.Levels.length
  · rw [getD_modifyAt _ _ _ hr l]
  · rw [modifyAt_oob _ _ _ (by omega)]
    by_cases hl : l = tm.Level
    · subst hl
      rw [if_pos rfl]
      rw [List.getD_eq_getElem?_getD, List.getElem?_eq_none_iff.mpr (by omega)]
      rfl
    · rw [if_neg hl]

theorem mem_levelSet_create (m : Manifest) (c : ManifestChange)
    (hop : c.Op = 0) (h : m.Tables.lookup c.Id = none) (l i : Nat) :
    i ∈ levelSet (applyManifestChange m c).1 l ↔
      i ∈ levelSet m l ∨ (l = c.Level ∧ i = c.Id) := by
  rw [levelSet_create m c hop h]
  by_cases hl : l = c.Level
  · subst hl
    rw [if_pos rfl, mem_setInsert]
    tauto
  · simp [hl]

theorem mem_levelSet_delete (m : Manifest) (c : ManifestChange)
    (tm : TableManifest) (hop : c.Op = 1)
    (h : m.Tables.lookup c.Id = some tm) (l i : Nat) :
    i ∈ levelSet (applyManifestChange m c).1 l ↔
      i ∈ levelSet m l ∧ ¬ (l = tm.Level ∧ i = c.Id) := by
  rw [levelSet_delete m c tm hop h]
  by_cases hl : l = tm.Level
  · subst hl
    simp only [if_pos rfl, List.mem_filter]
    simp
  · simp [hl]

theorem lookup_create (m : Manifest) (c : ManifestChange) (hop : c.Op = 0)
    (h : m.Tables.lookup c.Id = none) (j : Nat) :
    (applyManifestChange m c).1.Tables.lookup j =
      if j = c.Id then some ⟨c.Level % 256, c.Checksum⟩
      else m.Tables.lookup j := by
  have ht : (applyManifestChange m c).1.Tables =
      m.Tables ++ [(c.Id, ⟨c.Level % 256, c.Checksum⟩)] := by
    rw [applyCreate_eq m c hop h]
  rw [ht]
  by_cases hj : j = c.Id
  · subst hj
    rw [lookup_append_of_none _ _ _ h, lookup_singleton]
    simp
  · cases hl : m.Tables.lookup j with
    | none =>
      rw [lookup_append_of_none _ _ _ hl, lookup_singleton]
    | some v =>
      rw [lookup_append_of_some _ _ _ _ hl]
      simp [hj, hl]

theorem lookup_delete (m : Manifest) (c : ManifestChange)
    (tm : TableManifest) (hop : c.Op = 1)
    (h : m.Tables.lookup c.Id = some tm) (j : Nat) :
    (applyManifestChange m c).1.Tables.lookup j =
      if j = c.Id then none else m.Tables.lookup j := by
  have ht : (applyManifestChange m c).1.Tables =
      m.Tables.filter (fun p => p.1 ≠ c.Id) := by
    rw [applyDelete_eq m c tm hop h]
  rw [ht]
  exact lookup_filter_ne m.Tables c.Id j

/-! ### Extensional equivalence of manifests and congruence of apply -/

theorem MEquiv_refl (m : Manifest) : MEquiv m m :=
  ⟨fun _ => rfl, fun _ _ => Iff.rfl, rfl, rfl⟩

theorem applyManifestChange_congr (m1 m2 : Manifest) (c : ManifestChange)
    (h : MEquiv m1 m2) :
    (applyManifestChange m1 c).2 = (applyManifestChange m2 c).2 ∧
    MEquiv (applyManifestChange m1 c).1 (applyManifestChange m2 c).1 := by
  obtain ⟨ht, hl, hc, hd⟩ := h
  by_cases h0 : c.Op = 0
  · cases hlk : m1.Tables.lookup c.Id with
    | some tm =>
      have hlk2 : m2.Tables.lookup c.Id = some tm := by rw [← ht]; exact hlk
      rw [applyCreate_err m1 c h0 tm hlk, applyCreate_err m2 c h0 tm hlk2]
      exact ⟨rfl, ht, hl, hc, hd⟩
    | none =>
      have hlk2 : m2.Tables.lookup c.Id = none := by rw [← ht]; exact hlk
      refine ⟨?_, ?_, ?_, ?_, ?_⟩
      · rw [applyCreate_eq m1 c h0 hlk, applyCreate_eq m2 c h0 hlk2]
      · intro j
        rw [lookup_create m1 c h0 hlk j, lookup_create m2 c h0 hlk2 j, ht]
      · intro l i
        rw [mem_levelSet_create m1 c h0 hlk l i,
          mem_levelSet_create m2 c h0 hlk2 l i]
        have := hl l i
        tauto
      · rw [applyCreate_eq m1 c h0 hlk, applyCreate_eq m2 c h0 hlk2]
        simpa using hc
      · rw [applyCreate_eq m1 c h0 hlk, applyCreate_eq m2 c h0 hlk2]
        simpa using hd
  · by_cases h1 : c.Op = 1
    · cases hlk : m1.Tables.lookup c.Id with
      | none =>
        have hlk2 : m2.Tables.lookup c.Id = none := by rw [← ht]; exact hlk
        rw [applyDelete_err m1 c h1 hlk, applyDelete_err m2 c h1 hlk2]
        exact ⟨rfl, ht, hl, hc, hd⟩
      | some tm =>
        have hlk2 : m2.Tables.lookup c.Id = some tm := by rw [← ht]; exact hlk
        refine ⟨?_, ?_, ?_, ?_, ?_⟩
        · rw [applyDelete_eq m1 c tm h1 hlk, applyDelete_eq m2 c tm h1 hlk2]
        · intro j
          rw [lookup_delete m1 c tm h1 hlk j, lookup_delete m2 c tm h1 hlk2 j,
            ht]
        · intro l i
          rw [mem_levelSet_delete m1 c tm h1 hlk l i,
            mem_levelSet_delete m2 c tm h1 hlk2 l i]
          have := hl l i
          tauto
        · rw [applyDelete_eq m1 c tm h1 hlk, applyDelete_eq m2 c tm h1 hlk2]
          simpa using hc
        · rw [applyDelete_eq m1 c tm h1 hlk, applyDelete_eq m2 c tm h1 hlk2]
          simpa using hd
    · rw [applyOther_err m1 c h0 h1, applyOther_err m2 c h0 h1]
      exact ⟨rfl, ht, hl, hc, hd⟩

theorem applyChangeSet_congr (cs : List ManifestChange) (m1 m2 : Manifest)
    (h : MEquiv m1 m2) :
    (applyChangeSet m1 cs).2 = (applyChangeSet m2 cs).2 ∧
    MEquiv (applyChangeSet m1 cs).1 (applyChangeSet m2 cs).1 := by
  induction cs generalizing m1 m2 with
  | nil => exact ⟨rfl, h⟩
  | cons c cs ih =>
    obtain ⟨he, hm⟩ := applyManifestChange_congr m1 m2 c h
    simp only [applyChangeSet]
    rcases hA : applyManifestChange m1 c with ⟨m1', e1⟩
    rcases hB : applyManifestChange m2 c with ⟨m2', e2⟩
    rw [hA, hB] at he hm
    simp only at he hm
    subst he
    cases e1 with
    | none => exact ih m1' m2' hm
    | some e => exact ⟨rfl, hm⟩

/-! ### Well-formed manifests and preservation -/

theorem lookup_eq_none_iff (tbl : List (Nat × TableManifest)) (j : Nat) :
    tbl.lookup j = none ↔ j ∉ tbl.map Prod.fst := by
  induction tbl with
  | nil => simp [List.lookup]
  | cons q tbl ih =>
    rw [show q = (q.1, q.2) from rfl, lookup_cons]
    by_cases hj : j = q.1
    · simp [hj]
    · simp [hj, ih]

theorem mem_of_lookup (tbl : List (Nat × TableManifest)) (j : Nat)
    (tm : TableManifest) (h : tbl.lookup j = some tm) : (j, tm) ∈ tbl := by
  induction tbl with
  | nil => simp [List.lookup] at h
  | cons q tbl ih =>
    rw [show q = (q.1, q.2) from rfl, lookup_cons] at h
    by_cases hj : j = q.1
    · rw [if_pos hj] at h
      injection h with h
      rw [hj, ← h]
      simp
    · rw [if_neg hj] at h
      exact List.mem_cons_of_mem _ (ih h)

theorem lookup_of_mem_nodup (tbl : List (Nat × TableManifest)) (j : Nat)
    (tm : TableManifest) (hnd : (tbl.map Prod.fst).Nodup)
    (h : (j, tm) ∈ tbl) : tbl.lookup j = some tm := by
  induction tbl with
  | nil => simp at h
  | cons q tbl ih =>
    rw [List.map_cons] at hnd
    have hnd' := List.nodup_cons.mp hnd
    rw [show q = (q.1, q.2) from rfl, lookup_cons]
    rcases List.mem_cons.mp h with h1 | h1
    · rw [← h1]
      simp
    · have hq : j ≠ q.1 := by
        intro hjq
        refine hnd'.1 ?_
        rw [← hjq]
        exact List.mem_map.mpr ⟨(j, tm), h1, rfl⟩
      rw [if_neg hq]
      exact ih hnd'.2 h1

theorem wfManifest_empty : wfManifest createNewManifest := by
  refine ⟨by simp [createNewManifest], by simp [createNewManifest], ?_⟩
  intro l i h
  simp [createNewManifest, levelSet] at h

theorem wf_applyManifestChange (m : Manifest) (c : ManifestChange)
    (hwf : wfManifest m) (hc : wfChange c) :
    wfManifest (applyManifestChange m c).1 := by
  obtain ⟨hnd, hfld, hback⟩ := hwf
  obtain ⟨hop, hlv, hid, hck⟩ := hc
  rcases hop with h0 | h1
  · cases hlk : m.Tables.lookup c.Id with
    | some tm =>
      rw [applyCreate_err m c h0 tm hlk]
      exact ⟨hnd, hfld, hback⟩
    | none =>
      have hmod : c.Level % 256 = c.Level := Nat.mod_eq_of_lt hlv
      have ht : (applyManifestChange m c).1.Tables =
          m.Tables ++ [(c.Id, ⟨c.Level, c.Checksum⟩)] := by
        rw [applyCreate_eq m c h0 hlk, hmod]
      refine ⟨?_, ?_, ?_⟩
      · rw [ht]
        simp only [List.map_append, List.map_cons, List.map_nil]
        rw [List.nodup_append]
        refine ⟨hnd, by simp, ?_⟩
        intro a ha hb
        simp at hb
        rw [hb] at ha
        exact (lookup_eq_none_iff m.Tables c.Id).mp hlk ha
      · intro p hp
        rw [ht] at hp
        rcases List.mem_append.mp hp with hp1 | hp1
        · obtain ⟨f1, f2, f3, f4⟩ := hfld p hp1
          refine ⟨f1, f2, f3, ?_⟩
          rw [mem_levelSet_create m c h0 hlk]
          exact Or.inl f4
        · simp at hp1
          rw [hp1]
          refine ⟨hlv, hid, hck, ?_⟩
          rw [mem_levelSet_create m c h0 hlk]
          exact Or.inr ⟨rfl, rfl⟩
      · intro l i hi
        rw [mem_levelSet_create m c h0 hlk] at hi
        rcases hi with hi | ⟨hl, hi⟩
        · obtain ⟨tm, htm, htl⟩ := hback l i hi
          refine ⟨tm, ?_, htl⟩
          rw [lookup_create m c h0 hlk i]
          have : ¬ i = c.Id := by
            intro hic
            rw [hic, hlk] at htm
            exact Option.noConfusion htm
          rw [if_neg this]
          exact htm
        · refine ⟨⟨c.Level, c.Checksum⟩, ?_, by rw [hl]⟩
          rw [lookup_create m c h0 hlk i, if_pos hi, hmod]
  · cases hlk : m.Tables.lookup c.Id with
    | none =>
      rw [applyDelete_err m c h1 hlk]
      exact ⟨hnd, hfld, hback⟩
    | some tm =>
      have ht : (applyManifestChange m c).1.Tables =
          m.Tables.filter (fun p => p.1 ≠ c.Id) := by
        rw [applyDelete_eq m c tm h1 hlk]
      refine ⟨?_, ?_, ?_⟩
      · rw [ht]
        exact (hnd.sublist (List.Sublist.map Prod.fst
          (List.filter_sublist m.Tables)))
      · intro p hp
        rw [ht] at hp
        have hp2 := List.mem_filter.mp hp
        obtain ⟨f1, f2, f3, f4⟩ := hfld p hp2.1
        refine ⟨f1, f2, f3, ?_⟩
        rw [mem_levelSet_delete m c tm h1 hlk]
        refine ⟨f4, ?_⟩
        rintro ⟨_, hpid⟩
        have := hp2.2
        simp at this
        exact this hpid
      · intro l i hi
        rw [mem_levelSet_delete m c tm h1 hlk] at hi
        obtain ⟨hi, hne⟩ := hi
        obtain ⟨tm', htm', htl⟩ := hback l i hi
        have hine : ¬ i = c.Id := by
          intro hic
          rw [hic, hlk] at htm'
          injection htm' with htm'
          rw [← htm'] at htl
          exact hne ⟨htl.symm, hic⟩
        refine ⟨tm', ?_, htl⟩
        rw [lookup_delete m c tm h1 hlk i, if_neg hine]
        exact htm'

theorem wf_applyChangeSet (m : Manifest) (cs : List ManifestChange)
    (hwf : wfManifest m) (hcs : ∀ c ∈ cs, wfChange c) :
    wfManifest (applyChangeSet m cs).1 := by
  induction cs generalizing m with
  | nil => exact hwf
  | cons c cs ih =>
    simp only [applyChangeSet]
    rcases hA : applyManifestChange m c with ⟨m', e⟩
    have hwf' : wfManifest m' := by
      have := wf_applyManifestChange m c hwf (hcs c (by simp))
      rw [hA] at this
      exact this
    cases e with
    | none => exact ih m' hwf' (fun d hd => hcs d (by simp [hd]))
    | some e => exact hwf'

/-! ### Replaying the CREATE-only snapshot rebuilds the manifest -/

theorem applyChangeSet_creates (entries : List (Nat × TableManifest))
    (m : Manifest) (hlv : ∀ p ∈ entries, p.2.Level < 256)
    (habs : ∀ p ∈ entries, m.Tables.lookup p.1 = none)
    (hnd : (entries.map Prod.fst).Nodup) :
    (applyChangeSet m (entries.map
        (fun p => newCreateChange p.1 p.2.Level p.2.Checksum))).2 = none ∧
    (applyChangeSet m (entries.map
        (fun p => newCreateChange p.1 p.2.Level p.2.Checksum))).1.Tables =
      m.Tables ++ entries ∧
    (applyChangeSet m (entries.map
        (fun p => newCreateChange p.1 p.2.Level p.2.Checksum))).1.Creations =
      m.Creations + entries.length ∧
    (applyChangeSet m (entries.map
        (fun p => newCreateChange p.1 p.2.Level p.2.Checksum))).1.Deletions =
      m.Deletions ∧
    (∀ l i, i ∈ levelSet (applyChangeSet m (entries.map
        (fun p => newCreateChange p.1 p.2.Level p.2.Checksum))).1 l ↔
      i ∈ levelSet m l ∨ ∃ tm, (i, tm) ∈ entries ∧ tm.Level = l) := by
  induction entries generalizing m with
  | nil => simp [applyChangeSet]
  | cons p entries ih =>
    have hp : (newCreateChange p.1 p.2.Level p.2.Checksum).Op = 0 := rfl
    have hlk : m.Tables.lookup p.1 = none := habs p (by simp)
    have hmod : p.2.Level % 256 = p.2.Level :=
      Nat.mod_eq_of_lt (hlv p (by simp))
    rw [List.map_cons] at hnd
    have hnd' := List.nodup_cons.mp hnd
    have htab : (applyManifestChange m
        (newCreateChange p.1 p.2.Level p.2.Checksum)).1.Tables =
        m.Tables ++ [p] := by
      rw [applyCreate_eq _ _ hp hlk]
      show m.Tables ++ [(p.1, ⟨p.2.Level % 256, p.2.Checksum⟩)] =
        m.Tables ++ [p]
      rw [hmod]
    have hcre : (applyManifestChange m
        (newCreateChange p.1 p.2.Level p.2.Checksum)).1.Creations =
        m.Creations + 1 := by
      rw [applyCreate_eq _ _ hp hlk]
    have hdel : (applyManifestChange m
        (newCreateChange p.1 p.2.Level p.2.Checksum)).1.Deletions =
        m.Deletions := by
      rw [applyCreate_eq _ _ hp hlk]
    have herr : (applyManifestChange m
        (newCreateChange p.1 p.2.Level p.2.Checksum)).2 = none := by
      rw [applyCreate_eq _ _ hp hlk]
    have hlvl := mem_levelSet_create m
      (newCreateChange p.1 p.2.Level p.2.Checksum) hp hlk
    have habs' : ∀ q ∈ entries, (applyManifestChange m
        (newCreateChange p.1 p.2.Level p.2.Checksum)).1.Tables.lookup q.1 =
        none := by
      intro q hq
      rw [htab, lookup_append_of_none _ _ _ (habs q (by simp [hq])),
        lookup_singleton]
      have hne : ¬ q.1 = p.1 := by
        intro he
        refine hnd'.1 ?_
        rw [← he]
        exact List.mem_map.mpr ⟨q, hq, rfl⟩
      rw [if_neg hne]
    obtain ⟨ih1, ih2, ih3, ih4, ih5⟩ :=
      ih _ (fun q hq => hlv q (by simp [hq])) habs' hnd'.2
    simp only [List.map_cons, applyChangeSet]
    rcases hA : applyManifestChange m
      (newCreateChange p.1 p.2.Level p.2.Checksum) with ⟨m1, e⟩
    rw [hA] at herr htab hcre hdel ih1 ih2 ih3 ih4 ih5 hlvl
    simp only at herr htab hcre hdel ih1 ih2 ih3 ih4 ih5 hlvl
    subst herr
    refine ⟨ih1, ?_, ?_, ?_, ?_⟩
    · rw [ih2, htab, List.append_assoc]
      rfl
    · rw [ih3, hcre]
      simp
      omega
    · rw [ih4, hdel]
    · intro l i
      rw [ih5 l i, hlvl l i]
      constructor
      · rintro ((hi | ⟨hl, hi⟩) | ⟨tm, htm, htl⟩)
        · exact Or.inl hi
        · subst hl
          subst hi
          refine Or.inr ⟨p.2, ?_, rfl⟩
          change p ∈ p :: entries
          exact List.mem_cons_self _ _
        · exact Or.inr ⟨tm, List.mem_cons_of_mem _ htm, htl⟩
      · rintro (hi | ⟨tm, htm, htl⟩)
        · exact Or.inl (Or.inl hi)
        · rcases List.mem_cons.mp htm with he | he
          · subst htl
            have h1 : i = p.1 := congrArg Prod.fst he
            have h2 : tm = p.2 := congrArg Prod.snd he
            subst h1
            refine Or.inl (Or.inr ⟨?_, rfl⟩)
            rw [h2]
            rfl
          · exact Or.inr ⟨tm, he, htl⟩

theorem asChanges_wf (m : Manifest) (hwf : wfManifest m) :
    ∀ c ∈ asChanges m, wfChange c := by
  intro c hc
  obtain ⟨p, hp, hpc⟩ := List.mem_map.mp hc
  obtain ⟨f1, f2, f3, _⟩ := hwf.2.1 p hp
  rw [← hpc]
  exact ⟨Or.inl rfl, f1, f2, f3⟩

theorem snapshot_replay (m : Manifest) (hwf : wfManifest m) :
    (applyChangeSet createNewManifest (asChanges m)).2 = none ∧
    wfManifest (applyChangeSet createNewManifest (asChanges m)).1 ∧
    MEquiv (applyChangeSet createNewManifest (asChanges m)).1
      { m with Creations := m.Tables.length, Deletions := 0 } := by
  obtain ⟨hnd, hfld, hback⟩ := hwf
  obtain ⟨h1, h2, h3, h4, h5⟩ := applyChangeSet_creates m.Tables
    createNewManifest (fun p hp => (hfld p hp).1) (fun p hp => rfl) hnd
  refine ⟨h1, ?_, ?_, ?_, ?_, ?_⟩
  · exact wf_applyChangeSet createNewManifest (asChanges m) wfManifest_empty
      (asChanges_wf m ⟨hnd, hfld, hback⟩)
  · intro j
    show (applyChangeSet createNewManifest (asChanges m)).1.Tables.lookup j = _
    rw [show asChanges m = m.Tables.map
      (fun p => newCreateChange p.1 p.2.Level p.2.Checksum) from rfl, h2]
    rfl
  · intro l i
    rw [show asChanges m = m.Tables.map
      (fun p => newCreateChange p.1 p.2.Level p.2.Checksum) from rfl, h5 l i]
    have hemp : i ∈ levelSet createNewManifest l ↔ False := by
      simp [createNewManifest, levelSet]
    rw [hemp]
    show False ∨ (∃ tm, (i, tm) ∈ m.Tables ∧ tm.Level = l) ↔
      i ∈ levelSet m l
    constructor
    · rintro (h | ⟨tm, htm, htl⟩)
      · exact absurd h not_false
      · have := (hfld (i, tm) htm).2.2.2
        rw [htl] at this
        exact this
    · intro hi
      obtain ⟨tm, htm, htl⟩ := hback l i hi
      exact Or.inr ⟨tm, mem_of_lookup _ _ _ htm, htl⟩
  · rw [show asChanges m = m.Tables.map
      (fun p => newCreateChange p.1 p.2.Level p.2.Checksum) from rfl, h3]
    simp [createNewManifest]
  · rw [show asChanges m = m.Tables.map
      (fun p => newCreateChange p.1 p.2.Level p.2.Checksum) from rfl, h4]
    rfl

/-! ### Bounds on encoded snapshot sizes -/

theorem encodeCS_length_cons (c : ManifestChange) (cs : List ManifestChange) :
    (encodeCS (c :: cs)).length =
      (encodeChange c).length + (encodeCS cs).length := by
  rw [encodeCS_cons]
  simp

theorem snapEncLen_apply (m : Manifest) (c : ManifestChange) :
    (encodeCS (asChanges (applyManifestChange m c).1)).length ≤
      (encodeCS (asChanges m)).length + (encodeChange c).length := by
  by_cases h0 : c.Op = 0
  · cases hlk : m.Tables.lookup c.Id with
    | some tm =>
      rw [applyCreate_err m c h0 tm hlk]
      show (encodeCS (asChanges m)).length ≤ _
      omega
    | none =>
      have ht : (applyManifestChange m c).1.Tables =
          m.Tables ++ [(c.Id, ⟨c.Level % 256, c.Checksum⟩)] := by
        rw [applyCreate_eq m c h0 hlk]
      have : asChanges (applyManifestChange m c).1 =
          asChanges m ++ [newCreateChange c.Id (c.Level % 256) c.Checksum] := by
        show (applyManifestChange m c).1.Tables.map _ = _
        rw [ht, List.map_append]
        rfl
      rw [this]
      have hlen : ∀ cs1 cs2 : List ManifestChange,
          (encodeCS (cs1 ++ cs2)).length =
            (encodeCS cs1).length + (encodeCS cs2).length := by
        intro cs1 cs2
        simp [encodeCS]
      rw [hlen]
      have : (encodeCS [newCreateChange c.Id (c.Level % 256) c.Checksum]).length
          = 17 + c.Checksum.length := by
        simp [encodeCS, encodeChange_length]
        rfl
      rw [this, encodeChange_length]
  · by_cases h1 : c.Op = 1
    · cases hlk : m.Tables.lookup c.Id with
      | none =>
        rw [applyDelete_err m c h1 hlk]
        show (encodeCS (asChanges m)).length ≤ _
        omega
      | some tm =>
        have ht : (applyManifestChange m c).1.Tables =
            m.Tables.filter (fun p => p.1 ≠ c.Id) := by
          rw [applyDelete_eq m c tm h1 hlk]
        have hsub : (encodeCS (asChanges (applyManifestChange m c).1)).length ≤
            (encodeCS (asChanges m)).length := by
          show (encodeCS ((applyManifestChange m c).1.Tables.map _)).length ≤ _
          rw [ht]
          have : ∀ tbl : List (Nat × TableManifest), (encodeCS
              ((tbl.filter (fun p => p.1 ≠ c.Id)).map
                (fun p => newCreateChange p.1 p.2.Level p.2.Checksum))).length ≤
              (encodeCS (tbl.map
                (fun p => newCreateChange p.1 p.2.Level p.2.Checksum))).length := by
            intro tbl
            induction tbl with
            | nil => simp
            | cons q tbl ih =>
              by_cases hq : q.1 ≠ c.Id
              · rw [List.filter_cons_of_pos (by simpa using hq)]
                rw [List.map_cons, List.map_cons, encodeCS_length_cons,
                  encodeCS_length_cons]
                omega
              · rw [List.filter_cons_of_neg (by simpa using hq)]
                rw [List.map_cons, encodeCS_length_cons]
                omega
          exact this m.Tables
        omega
    · rw [applyOther_err m c h0 h1]
      show (encodeCS (asChanges m)).length ≤ _
      omega

theorem snapEncLen_applyCS (m : Manifest) (cs : List ManifestChange) :
    (encodeCS (asChanges (applyChangeSet m cs).1)).length ≤
      (encodeCS (asChanges m)).length + (encodeCS cs).length := by
  induction cs generalizing m with
  | nil => simp [applyChangeSet]
  | cons c cs ih =>
    simp only [applyChangeSet]
    rcases hA : applyManifestChange m c with ⟨m', e⟩
    have hstep := snapEncLen_apply m c
    rw [hA] at hstep
    simp only at hstep
    cases e with
    | none =>
      have hih := ih m'
      rw [encodeCS_length_cons]
      show (encodeCS (asChanges (applyChangeSet m' cs).1)).length ≤ _
      omega
    | some e =>
      rw [encodeCS_length_cons]
      show (encodeCS (asChanges m')).length ≤ _
      omega

/-! ### CRC values fit in 32 bits -/

theorem crc32Step_lt (c : Nat) (h : c < 2 ^ 32) : crc32Step c < 2 ^ 32 := by
  unfold crc32Step
  split
  · refine Nat.xor_lt_two_pow (by omega) ?_
    norm_num [crc32Poly]
  · omega

theorem crc32Byte_lt (c b : Nat) (h : c < 2 ^ 32) : crc32Byte c b < 2 ^ 32 := by
  have hx : Nat.xor c (b % 256) < 2 ^ 32 := by
    refine Nat.xor_lt_two_pow h (by have := Nat.mod_lt b (by norm_num : 0 < 256); omega)
  show crc32Step^[8] (Nat.xor c (b % 256)) < 2 ^ 32
  have : ∀ k x, x < 2 ^ 32 → crc32Step^[k] x < 2 ^ 32 := by
    intro k
    induction k with
    | zero => intro x hx; simpa using hx
    | succ k ih =>
      intro x hx
      rw [Function.iterate_succ_apply]
      exact ih _ (crc32Step_lt x hx)
  exact this 8 _ hx

theorem crc32_lt (data : List Nat) : crc32 data < 2 ^ 32 := by
  unfold crc32
  refine Nat.xor_lt_two_pow ?_ (by norm_num)
  have : ∀ (l : List Nat) (a : Nat), a < 2 ^ 32 →
      l.foldl crc32Byte a < 2 ^ 32 := by
    intro l
    induction l with
    | nil => intro a ha; simpa using ha
    | cons b l ih =>
      intro a ha
      rw [List.foldl_cons]
      exact ih _ (crc32Byte_lt a b ha)
  exact this data 0xFFFFFFFF (by norm_num)

/-! ### The replay loop over well-formed frames -/

theorem replayAux_congr :
    ∀ (n f1 f2 : Nat) (m : Manifest) (off : Nat) (bs : List Nat),
      bs.length ≤ n → bs.length < f1 → bs.length < f2 →
      replayAux f1 m off bs = replayAux f2 m off bs := by
  intro n
  induction n with
  | zero =>
    intro f1 f2 m off bs hb h1 h2
    cases f1 with
    | zero => omega
    | succ f1 =>
      cases f2 with
      | zero => omega
      | succ f2 =>
        have h8 : bs.length < 8 := by omega
        simp only [replayAux]
        rw [if_pos h8, if_pos h8]
  | succ n ih =>
    intro f1 f2 m off bs hb h1 h2
    cases f1 with
    | zero => omega
    | succ f1 =>
      cases f2 with
      | zero => omega
      | succ f2 =>
        simp only [replayAux]
        by_cases h8 : bs.length < 8
        · rw [if_pos h8, if_pos h8]
        · rw [if_neg h8, if_neg h8]
          split
          · rfl
          · split
            · rfl
            · split
              · rfl
              · split
                · rfl
                · exact ih f1 f2 _ _ _ (by simp at hb ⊢; omega)
                    (by simp at h1 ⊢; omega) (by simp at h2 ⊢; omega)

theorem frameBytes_length (p : List Nat) :
    (frameBytes p).length = 8 + p.length := by
  simp [frameBytes, beEnc_length]
  omega

theorem framesOf_cons (cs : List ManifestChange)
    (css : List (List ManifestChange)) :
    framesOf (cs :: css) = frameBytes (encodeCS cs) ++ framesOf css := by
  simp [framesOf]

theorem replayAux_frame (m : Manifest) (off : Nat) (cs : List ManifestChange)
    (rest : List Nat) (hdec : decodeCS (encodeCS cs) = some cs)
    (hsz : (encodeCS cs).length < 2 ^ 32) (f : Nat)
    (hf : (frameBytes (encodeCS cs) ++ rest).length < f + 1) :
    replayAux (f + 1) m off (frameBytes (encodeCS cs) ++ rest) =
      match applyChangeSet m cs with
      | (_, some e) => .error e
      | (m', none) =>
        replayAux (rest.length + 1) m' (off + 8 + (encodeCS cs).length)
          rest := by
  have hB : frameBytes (encodeCS cs) ++ rest =
      beEnc 4 (encodeCS cs).length ++ (beEnc 4 (crc32 (encodeCS cs)) ++
        (encodeCS cs ++ rest)) := by
    simp [frameBytes, List.append_assoc]
  have hT4 : (beEnc 4 (encodeCS cs).length ++ (beEnc 4 (crc32 (encodeCS cs)) ++
      (encodeCS cs ++ rest))).take 4 = beEnc 4 (encodeCS cs).length :=
    take_append_of_length _ _ _ (beEnc_length 4 _)
  have hTd4 : (beEnc 4 (encodeCS cs).length ++ (beEnc 4 (crc32 (encodeCS cs)) ++
      (encodeCS cs ++ rest))).drop 4 = beEnc 4 (crc32 (encodeCS cs)) ++
      (encodeCS cs ++ rest) := drop_append_of_length _ _ _ (beEnc_length 4 _)
  have hTd4t : ((beEnc 4 (encodeCS cs).length ++
      (beEnc 4 (crc32 (encodeCS cs)) ++ (encodeCS cs ++ rest))).drop 4).take 4 =
      beEnc 4 (crc32 (encodeCS cs)) := by
    rw [hTd4]
    exact take_append_of_length _ _ _ (beEnc_length 4 _)
  have hTd8 : (beEnc 4 (encodeCS cs).length ++ (beEnc 4 (crc32 (encodeCS cs)) ++
      (encodeCS cs ++ rest))).drop 8 = encodeCS cs ++ rest := by
    have h1 : (8 : Nat) = 4 + 4 := by norm_num
    rw [h1, ← List.drop_drop, hTd4]
    exact drop_append_of_length _ _ _ (beEnc_length 4 _)
  have hTlen : (beEnc 4 (encodeCS cs).length ++ (beEnc 4 (crc32 (encodeCS cs))
      ++ (encodeCS cs ++ rest))).length =
      8 + ((encodeCS cs).length + rest.length) := by
    simp [beEnc_length]
    omega
  have hdrop : (beEnc 4 (encodeCS cs).length ++
      (beEnc 4 (crc32 (encodeCS cs)) ++ (encodeCS cs ++ rest))).drop
        (8 + (encodeCS cs).length) = rest := by
    rw [← List.drop_drop, hTd8]
    exact drop_append_of_length _ _ _ rfl
  have hparse : replayAux (f + 1) m off (frameBytes (encodeCS cs) ++ rest) =
      match applyChangeSet m cs with
      | (_, some e) => .error e
      | (m', none) =>
        replayAux f m' (off + 8 + (encodeCS cs).length) rest := by
    rw [hB]
    simp only [replayAux]
    rw [if_neg (by rw [hTlen]; omega)]
    rw [hT4, hTd4t, hTd8, beDec_beEnc_of_lt 4 _ (by simpa using hsz),
      beDec_beEnc_of_lt 4 _ (by simpa using crc32_lt (encodeCS cs))]
    rw [take_append_of_length (encodeCS cs) rest (encodeCS cs).length rfl]
    rw [if_neg (by omega)]
    rw [if_neg (by simp)]
    rw [hdec, hdrop]
  rw [hparse]
  rcases hA : applyChangeSet m cs with ⟨m', e⟩
  cases e with
  | some e => rfl
  | none =>
    show replayAux f m' (off + 8 + (encodeCS cs).length) rest =
      replayAux (rest.length + 1) m' (off + 8 + (encodeCS cs).length) rest
    refine replayAux_congr rest.length f (rest.length + 1) m' _ rest le_rfl
      ?_ (by omega)
    simp [frameBytes_length] at hf
    omega

theorem replayAux_frames (css : List (List ManifestChange)) :
    ∀ (m : Manifest) (off : Nat) (tail : List Nat),
    (∀ cs ∈ css, (∀ c ∈ cs, wfChange c) ∧ (encodeCS cs).length < 2 ^ 32) →
    replayAux ((framesOf css ++ tail).length + 1) m off
        (framesOf css ++ tail) =
      match runChangeSets m css with
      | (_, some e) => .error e
      | (m', none) =>
        replayAux (tail.length + 1) m' (off + (framesOf css).length) tail := by
  induction css with
  | nil =>
    intro m off tail h
    simp [framesOf, runChangeSets]
  | cons cs css ih =>
    intro m off tail h
    have hcs := h cs (by simp)
    have hdec : decodeCS (encodeCS cs) = some cs := decodeCS_encodeCS cs hcs.1
    have hF : framesOf (cs :: css) ++ tail =
        frameBytes (encodeCS cs) ++ (framesOf css ++ tail) := by
      rw [framesOf_cons, List.append_assoc]
    rw [hF]
    rw [replayAux_frame m off cs (framesOf css ++ tail) hdec hcs.2 _
      (by omega)]
    simp only [runChangeSets]
    rcases hA : applyChangeSet m cs with ⟨m', e⟩
    cases e with
    | some e => rfl
    | none =>
      show replayAux ((framesOf css ++ tail).length + 1) m'
          (off + 8 + (encodeCS cs).length) (framesOf css ++ tail) = _
      rw [ih m' (off + 8 + (encodeCS cs).length) tail
        (fun d hd => h d (by simp [hd]))]
      have hoff : off + 8 + (encodeCS cs).length + (framesOf css).length =
          off + (framesOf (cs :: css)).length := by
        rw [framesOf_cons]
        simp [frameBytes_length]
        omega
      rw [hoff]

theorem ReplayManifestFile_frames (css : List (List ManifestChange))
    (tail : List Nat)
    (h : ∀ cs ∈ css, (∀ c ∈ cs, wfChange c) ∧ (encodeCS cs).length < 2 ^ 32) :
    ReplayManifestFile (magicHeader ++ (framesOf css ++ tail)) =
      match runChangeSets createNewManifest css with
      | (_, some e) => .error e
      | (m', none) =>
        replayAux (tail.length + 1) m' (8 + (framesOf css).length) tail := by
  have hassoc : magicHeader ++ (framesOf css ++ tail) = utils.MagicText ++
      (beEnc 4 utils.MagicVersion ++ (framesOf css ++ tail)) := by
    simp [magicHeader, List.append_assoc]
  have hmt : (magicHeader ++ (framesOf css ++ tail)).take 4 =
      utils.MagicText := by
    rw [hassoc]
    exact take_append_of_length utils.MagicText _ 4 rfl
  have hmv : beDec (((magicHeader ++ (framesOf css ++ tail)).drop 4).take 4) =
      utils.MagicVersion := by
    rw [hassoc, drop_append_of_length utils.MagicText _ 4 rfl,
      take_append_of_length _ _ 4 (beEnc_length 4 _)]
    rfl
  have hd8 : (magicHeader ++ (framesOf css ++ tail)).drop 8 =
      framesOf css ++ tail := drop_append_of_length magicHeader _ 8 rfl
  have hml : (magicHeader ++ (framesOf css ++ tail)).length =
      8 + (framesOf css ++ tail).length := by
    rw [List.length_append]
    rfl
  unfold ReplayManifestFile
  rw [if_neg (by rw [hml]; omega), if_neg (by rw [hmt]; simp),
    if_neg (by rw [hmv]; simp), hd8]
  rw [replayAux_congr (framesOf css ++ tail).length
    ((magicHeader ++ (framesOf css ++ tail)).length + 1)
    ((framesOf css ++ tail).length + 1) createNewManifest 8
    (framesOf css ++ tail) le_rfl (by rw [hml]; omega) (by omega)]
  exact replayAux_frames css createNewManifest 8 tail h

/-! ### Invariant: the on-disk frames replay to the in-memory manifest -/

theorem addChanges_err (mf : ManifestFile) (cs : List ManifestChange)
    (m' : Manifest) (e : Err)
    (hA : applyChangeSet mf.manifest cs = (m', some e)) :
    addChanges mf cs = ({ mf with manifest := m' }, some e) := by
  simp [addChanges, hA]

theorem addChanges_ok (mf : ManifestFile) (cs : List ManifestChange)
    (m' : Manifest) (hA : applyChangeSet mf.manifest cs = (m', none)) :
    addChanges mf cs =
      (if rewriteCond m' then
        rewrite { manifest := m', fileBytes := mf.fileBytes }
      else
        { manifest := m',
          fileBytes := mf.fileBytes ++ frameBytes (encodeCS cs) }, none) := by
  simp only [addChanges, hA]
  split <;> rfl

theorem runChangeSets_append (a b : List (List ManifestChange))
    (m : Manifest) :
    runChangeSets m (a ++ b) =
      match runChangeSets m a with
      | (m1, none) => runChangeSets m1 b
      | (m1, some e) => (m1, some e) := by
  induction a generalizing m with
  | nil => simp [runChangeSets]
  | cons cs a ih =>
    simp only [List.cons_append, runChangeSets]
    rcases hA : applyChangeSet m cs with ⟨m1, e⟩
    cases e with
    | none => exact ih m1
    | some e => rfl

theorem goodFile_fresh : GoodFile OpenManifestFileFresh := by
  refine ⟨wfManifest_empty, [[]], createNewManifest, ?_, ?_, rfl,
    wfManifest_empty, MEquiv_refl _⟩
  · intro cs hcs
    simp at hcs
    subst hcs
    exact ⟨by simp, by norm_num [encodeCS]⟩
  · rfl

theorem framesOf_append_single (css : List (List ManifestChange))
    (cs : List ManifestChange) :
    framesOf (css ++ [cs]) = framesOf css ++ frameBytes (encodeCS cs) := by
  simp [framesOf]

theorem runAddChanges_good (hist : List (List ManifestChange)) :
    ∀ (mf st : ManifestFile),
    (∀ cs ∈ hist, ∀ c ∈ cs, wfChange c) →
    (encodeCS (asChanges mf.manifest)).length + totalEncLen hist < 2 ^ 32 →
    GoodFile mf →
    runAddChanges mf hist = (st, none) →
    GoodFile st ∧ (encodeCS (asChanges st.manifest)).length ≤
      (encodeCS (asChanges mf.manifest)).length + totalEncLen hist := by
  induction hist with
  | nil =>
    intro mf st hwfh hsz hg hrun
    simp only [runAddChanges] at hrun
    injection hrun with h1 h2
    subst h1
    exact ⟨hg, by simp [totalEncLen]⟩
  | cons cs rest ih =>
    intro mf st hwfh hsz hg hrun
    obtain ⟨hwfm, css, mR, hcssWf, hfile, hrunCss, hwfR, hequiv⟩ := hg
    have htot : totalEncLen (cs :: rest) =
        (encodeCS cs).length + totalEncLen rest := by
      simp [totalEncLen]
    simp only [runAddChanges] at hrun
    rcases hA : applyChangeSet mf.manifest cs with ⟨m', e⟩
    cases e with
    | some e =>
      rw [addChanges_err mf cs m' e hA] at hrun
      simp at hrun
    | none =>
      rw [addChanges_ok mf cs m' hA] at hrun
      have hwfcs : ∀ c ∈ cs, wfChange c := hwfh cs (by simp)
      have hwfm' : wfManifest m' := by
        have := wf_applyChangeSet mf.manifest cs hwfm hwfcs
        rw [hA] at this
        exact this
      have hsnap' : (encodeCS (asChanges m')).length ≤
          (encodeCS (asChanges mf.manifest)).length +
            (encodeCS cs).length := by
        have := snapEncLen_applyCS mf.manifest cs
        rw [hA] at this
        exact this
      have hcong := applyChangeSet_congr cs mR mf.manifest hequiv
      rw [hA] at hcong
      rcases hB : applyChangeSet mR cs with ⟨mR', eR⟩
      rw [hB] at hcong
      simp only at hcong
      obtain ⟨heR, hequiv'⟩ := hcong
      subst heR
      have hwfR' : wfManifest mR' := by
        have := wf_applyChangeSet mR cs hwfR hwfcs
        rw [hB] at this
        exact this
      by_cases hrw : rewriteCond m'
      · rw [if_pos hrw] at hrun
        have hsnapm' : (encodeCS (asChanges m')).length < 2 ^ 32 := by
          rw [htot] at hsz
          omega
        obtain ⟨hs1, hs2, hs3⟩ := snapshot_replay m' hwfm'
        have hGood1 : GoodFile (rewrite ⟨m', mf.fileBytes⟩) := by
          refine ⟨?_, [asChanges m'],
            (applyChangeSet createNewManifest (asChanges m')).1, ?_, ?_, ?_,
            hs2, ?_⟩
          · show wfManifest { m' with Creations := m'.Tables.length, Deletions := 0 }
            obtain ⟨w1, w2, w3⟩ := hwfm'
            exact ⟨w1, w2, w3⟩
          · intro d hd
            simp at hd
            subst hd
            exact ⟨asChanges_wf m' hwfm', hsnapm'⟩
          · show createFileAndRewriteBytes m' = _
            simp [createFileAndRewriteBytes, framesOf]
          · simp only [runChangeSets]
            rcases hC : applyChangeSet createNewManifest (asChanges m')
              with ⟨ms, es⟩
            rw [hC] at hs1
            simp only at hs1
            subst hs1
            rfl
          · exact hs3
        have hstep : (encodeCS (asChanges
            (rewrite ⟨m', mf.fileBytes⟩).manifest)).length =
            (encodeCS (asChanges m')).length := rfl
        obtain ⟨hg2, hb2⟩ := ih _ st (fun d hd => hwfh d (by simp [hd]))
          (by
            rw [hstep]
            rw [htot] at hsz
            omega) hGood1 hrun
        refine ⟨hg2, ?_⟩
        rw [htot]
        rw [hstep] at hb2
        omega
      · rw [if_neg hrw] at hrun
        have hGood1 : GoodFile
            ⟨m', mf.fileBytes ++ frameBytes (encodeCS cs)⟩ := by
          refine ⟨hwfm', css ++ [cs], mR', ?_, ?_, ?_, hwfR', hequiv'⟩
          · intro d hd
            rcases List.mem_append.mp hd with hd | hd
            · exact hcssWf d hd
            · simp at hd
              subst hd
              refine ⟨hwfcs, ?_⟩
              rw [htot] at hsz
              omega
          · show mf.fileBytes ++ frameBytes (encodeCS cs) = _
            rw [hfile, framesOf_append_single, List.append_assoc]
          · rw [runChangeSets_append, hrunCss]
            simp only [runChangeSets]
            rw [hB]
        obtain ⟨hg2, hb2⟩ := ih _ st (fun d hd => hwfh d (by simp [hd]))
          (by
            show (encodeCS (asChanges m')).length + totalEncLen rest < 2 ^ 32
            rw [htot] at hsz
            omega) hGood1 hrun
        refine ⟨hg2, ?_⟩
        have hred : (encodeCS (asChanges ((⟨m', mf.fileBytes ++
            frameBytes (encodeCS cs)⟩ : ManifestFile)).manifest)).length =
            (encodeCS (asChanges m')).length := rfl
        rw [hred] at hb2
        rw [htot]
        omega


theorem magicHeader_length : magicHeader.length = 8 := rfl

theorem goodFile_replay (st : ManifestFile) (h : GoodFile st) :
    ∃ mR, ReplayManifestFile st.fileBytes =
      .ok (mR, st.fileBytes.length) ∧ MEquiv mR st.manifest := by
  obtain ⟨hwf, css, mR, hcssWf, hfile, hrunCss, hwfR, hequiv⟩ := h
  refine ⟨mR, ?_, hequiv⟩
  have hfile' : st.fileBytes = magicHeader ++ (framesOf css ++ []) := by
    rw [hfile]
    simp
  rw [hfile', ReplayManifestFile_frames css [] hcssWf, hrunCss]
  show replayAux 1 mR (8 + (framesOf css).length) [] = _
  simp only [replayAux]
  rw [if_pos (by simp)]
  simp [magicHeader_length]

theorem replayAux_short_payload (m : Manifest) (off : Nat) (lenv crcv : Nat)
    (p : List Nat) (hL : lenv < 2 ^ 32) (hp : p.length < lenv) (f : Nat) :
    replayAux (f + 1) m off (beEnc 4 lenv ++ (beEnc 4 crcv ++ p)) =
      .error .truncatedPayload := by
  have hT4 : (beEnc 4 lenv ++ (beEnc 4 crcv ++ p)).take 4 = beEnc 4 lenv :=
    take_append_of_length _ _ _ (beEnc_length 4 _)
  have hTd8 : (beEnc 4 lenv ++ (beEnc 4 crcv ++ p)).drop 8 = p := by
    have h1 : (8 : Nat) = 4 + 4 := by norm_num
    rw [h1, ← List.drop_drop, drop_append_of_length _ _ _ (beEnc_length 4 _)]
    exact drop_append_of_length _ _ _ (beEnc_length 4 _)
  have hTlen : (beEnc 4 lenv ++ (beEnc 4 crcv ++ p)).length =
      8 + p.length := by
    simp [beEnc_length]
    omega
  simp only [replayAux]
  rw [if_neg (by rw [hTlen]; omega)]
  rw [hT4, hTd8, beDec_beEnc_of_lt 4 _ (by simpa using hL)]
  rw [if_pos (by rw [List.take_of_length_le (by omega)]; omega)]

theorem modifyAt_length (ls : List (List Nat)) (i : Nat)
    (f : List Nat → List Nat) : (modifyAt ls i f).length = ls.length := by
  induction ls generalizing i with
  | nil => rw [modifyAt_nil]
  | cons x ls ih =>
    cases i with
    | zero => rw [modifyAt_zero]; simp
    | succ i => rw [modifyAt_succ]; simp [ih]

/-- C5: for a store whose manifest file is absent, open-or-create succeeds
with an empty in-memory manifest, and the file on disk is the 8-byte header
followed by exactly one frame whose payload is the CREATE-only snapshot of
the empty manifest, i.e. an empty ChangeSet; replaying that file yields the
empty manifest again with offset 16. -/
theorem c5_fresh_bootstrap :
    OpenManifestFileFresh.manifest = createNewManifest ∧
    asChanges createNewManifest = [] ∧
    OpenManifestFileFresh.fileBytes =
      magicHeader ++ frameBytes (encodeCS (asChanges createNewManifest)) ∧
    magicHeader.length = 8 ∧
    frameBytes (encodeCS []) = [0, 0, 0, 0, 0, 0, 0, 0] ∧
    ReplayManifestFile OpenManifestFileFresh.fileBytes =
      .ok (createNewManifest, 16) := by
  refine ⟨rfl, rfl, rfl, rfl, by decide, by rfl⟩

/-- C7: a successful rewrite leaves the logical manifest (Tables and
Levels) unchanged, sets Creations to the number of live tables and
Deletions to zero, and writes a snapshot file whose replay agrees with the
post-rewrite manifest. -/
theorem c7_rewrite_idempotent (mf : ManifestFile) :
    (rewrite mf).manifest.Tables = mf.manifest.Tables ∧
    (rewrite mf).manifest.Levels = mf.manifest.Levels ∧
    (rewrite mf).manifest.Creations = mf.manifest.Tables.length ∧
    (rewrite mf).manifest.Deletions = 0 ∧
    (rewrite mf).fileBytes = createFileAndRewriteBytes mf.manifest ∧
    (wfManifest mf.manifest →
      (encodeCS (asChanges mf.manifest)).length < 2 ^ 32 →
      ∃ mR, ReplayManifestFile (rewrite mf).fileBytes =
        .ok (mR, (rewrite mf).fileBytes.length) ∧
        MEquiv mR (rewrite mf).manifest) := by
  refine ⟨rfl, rfl, rfl, rfl, rfl, ?_⟩
  intro hwf hsz
  obtain ⟨hs1, hs2, hs3⟩ := snapshot_replay mf.manifest hwf
  refine goodFile_replay (rewrite mf) ⟨?_, [asChanges mf.manifest],
    (applyChangeSet createNewManifest (asChanges mf.manifest)).1, ?_, ?_, ?_,
    hs2, hs3⟩
  · show wfManifest { mf.manifest with
      Creations := mf.manifest.Tables.length, Deletions := 0 }
    obtain ⟨w1, w2, w3⟩ := hwf
    exact ⟨w1, w2, w3⟩
  · intro d hd
    simp at hd
    subst hd
    exact ⟨asChanges_wf mf.manifest hwf, hsz⟩
  · show createFileAndRewriteBytes mf.manifest = _
    simp [createFileAndRewriteBytes, framesOf]
  · simp only [runChangeSets]
    rcases hC : applyChangeSet createNewManifest (asChanges mf.manifest)
      with ⟨ms, es⟩
    rw [hC] at hs1
    simp only at hs1
    subst hs1
    rfl

/-- Witness for C7 at the fresh empty store. -/
theorem c7_rewrite_idempotent_witness :
    (rewrite OpenManifestFileFresh).manifest.Tables =
      OpenManifestFileFresh.manifest.Tables ∧
    (rewrite OpenManifestFileFresh).manifest.Levels =
      OpenManifestFileFresh.manifest.Levels ∧
    (rewrite OpenManifestFileFresh).manifest.Creations =
      OpenManifestFileFresh.manifest.Tables.length ∧
    (rewrite OpenManifestFileFresh).manifest.Deletions = 0 ∧
    (rewrite OpenManifestFileFresh).fileBytes =
      createFileAndRewriteBytes OpenManifestFileFresh.manifest ∧
    ∃ mR, ReplayManifestFile (rewrite OpenManifestFileFresh).fileBytes =
      .ok (mR, (rewrite OpenManifestFileFresh).fileBytes.length) ∧
      MEquiv mR (rewrite OpenManifestFileFresh).manifest := by
  obtain ⟨h1, h2, h3, h4, h5, h6⟩ :=
    c7_rewrite_idempotent OpenManifestFileFresh
  exact ⟨h1, h2, h3, h4, h5, h6 wfManifest_empty (by decide)⟩

/-- C6: semantics of applying one Change.  A CREATE of an existing id and a
DELETE of a missing id fail leaving the manifest unchanged; otherwise
CREATE inserts the table record (level stored as a u8), extends the level
list up to the change's level, adds the id to that level's set and bumps
Creations; DELETE removes the id from the recorded level's set and from
Tables and bumps Deletions; any other operation tag fails leaving the
manifest unchanged. -/
theorem c6_apply_one_change (m : Manifest) (c : pb.ManifestChange) :
    (c.Op = 0 → ∀ tm, m.Tables.lookup c.Id = some tm →
      applyManifestChange m c = (m, some (.tableExists c.Id))) ∧
    (c.Op = 0 → m.Tables.lookup c.Id = none →
      (applyManifestChange m c).2 = none ∧
      (∀ j, (applyManifestChange m c).1.Tables.lookup j =
        if j = c.Id then some ⟨c.Level % 256, c.Checksum⟩
        else m.Tables.lookup j) ∧
      (applyManifestChange m c).1.Levels.length =
        max m.Levels.length (c.Level + 1) ∧
      (∀ l i, i ∈ levelSet (applyManifestChange m c).1 l ↔
        (i ∈ levelSet m l ∨ (l = c.Level ∧ i = c.Id))) ∧
      (applyManifestChange m c).1.Creations = m.Creations + 1 ∧
      (applyManifestChange m c).1.Deletions = m.Deletions) ∧
    (c.Op = 1 → m.Tables.lookup c.Id = none →
      applyManifestChange m c = (m, some (.removesNonExisting c.Id))) ∧
    (c.Op = 1 → ∀ tm, m.Tables.lookup c.Id = some tm →
      (applyManifestChange m c).2 = none ∧
      (∀ j, (applyManifestChange m c).1.Tables.lookup j =
        if j = c.Id then none else m.Tables.lookup j) ∧
      (∀ l i, i ∈ levelSet (applyManifestChange m c).1 l ↔
        (i ∈ levelSet m l ∧ ¬ (l = tm.Level ∧ i = c.Id))) ∧
      (applyManifestChange m c).1.Deletions = m.Deletions + 1 ∧
      (applyManifestChange m c).1.Creations = m.Creations) ∧
    (c.Op ≠ 0 → c.Op ≠ 1 →
      applyManifestChange m c = (m, some .wrongOp)) := by
  refine ⟨?_, ?_, ?_, ?_, ?_⟩
  · intro h0 tm hlk
    exact applyCreate_err m c h0 tm hlk
  · intro h0 hlk
    refine ⟨by rw [applyCreate_eq m c h0 hlk],
      lookup_create m c h0 hlk, ?_,
      mem_levelSet_create m c h0 hlk,
      by rw [applyCreate_eq m c h0 hlk],
      by rw [applyCreate_eq m c h0 hlk]⟩
    have hl : (applyManifestChange m c).1.Levels =
        modifyAt (extendLevels m.Levels c.Level) c.Level
          (fun s => setInsert s c.Id) := by
      rw [applyCreate_eq m c h0 hlk]
    rw [hl, modifyAt_length, length_extendLevels]
  · intro h1 hlk
    exact applyDelete_err m c h1 hlk
  · intro h1 tm hlk
    exact ⟨by rw [applyDelete_eq m c tm h1 hlk],
      lookup_delete m c tm h1 hlk,
      mem_levelSet_delete m c tm h1 hlk,
      by rw [applyDelete_eq m c tm h1 hlk],
      by rw [applyDelete_eq m c tm h1 hlk]⟩
  · intro h0 h1
    exact applyOther_err m c h0 h1

/-- Witness for C6: a fresh CREATE of id 2 at level 0 into a manifest
holding table 1, a duplicate CREATE of id 1, and a DELETE of id 1. -/
theorem c6_apply_one_change_witness :
    applyManifestChange ⟨[[1]], [(1, ⟨0, []⟩)], 1, 0⟩ ⟨1, 0, 0, []⟩ =
      (⟨[[1]], [(1, ⟨0, []⟩)], 1, 0⟩, some (.tableExists 1)) ∧
    (applyManifestChange ⟨[[1]], [(1, ⟨0, []⟩)], 1, 0⟩ ⟨2, 0, 1, [3]⟩).2 =
      none ∧
    (applyManifestChange ⟨[[1]], [(1, ⟨0, []⟩)], 1, 0⟩
      ⟨2, 0, 1, [3]⟩).1.Tables.lookup 2 = some ⟨1, [3]⟩ ∧
    (applyManifestChange ⟨[[1]], [(1, ⟨0, []⟩)], 1, 0⟩
      ⟨2, 0, 1, [3]⟩).1.Levels.length = 2 ∧
    (applyManifestChange ⟨[[1]], [(1, ⟨0, []⟩)], 1, 0⟩ ⟨1, 1, 0, []⟩).2 =
      none ∧
    (applyManifestChange ⟨[[1]], [(1, ⟨0, []⟩)], 1, 0⟩
      ⟨1, 1, 0, []⟩).1.Deletions = 1 := by
  have h1 := (c6_apply_one_change ⟨[[1]], [(1, ⟨0, []⟩)], 1, 0⟩
    ⟨1, 0, 0, []⟩).1 rfl ⟨0, []⟩ (by decide)
  have h2 := (c6_apply_one_change ⟨[[1]], [(1, ⟨0, []⟩)], 1, 0⟩
    ⟨2, 0, 1, [3]⟩).2.1 rfl (by decide)
  have h3 := (c6_apply_one_change ⟨[[1]], [(1, ⟨0, []⟩)], 1, 0⟩
    ⟨1, 1, 0, []⟩).2.2.2.1 rfl ⟨0, []⟩ (by decide)
  refine ⟨h1, h2.1, ?_, ?_, h3.1, ?_⟩
  · rw [h2.2.1 2]
    decide
  · rw [h2.2.2.1]
    decide
  · rw [h3.2.2.2.1]

theorem applyChangeSet_err_decomp (cs : List pb.ManifestChange) :
    ∀ (m m' : Manifest) (e : Err), applyChangeSet m cs = (m', some e) →
    ∃ pre c post, cs = pre ++ c :: post ∧
      applyChangeSet m pre = (m', none) ∧
      applyManifestChange m' c = (m', some e) := by
  induction cs with
  | nil =>
    intro m m' e h
    simp [applyChangeSet] at h
  | cons c cs ih =>
    intro m m' e h
    simp only [applyChangeSet] at h
    rcases hA : applyManifestChange m c with ⟨m1, e1⟩
    rw [hA] at h
    cases e1 with
    | some eA =>
      simp only at h
      injection h with h1 h2
      injection h2 with h2
      subst h1
      subst h2
      have hm : m1 = m := applyManifestChange_err m c m1 eA hA
      subst hm
      exact ⟨[], c, cs, rfl, rfl, hA⟩
    | none =>
      obtain ⟨pre, c', post, hsplit, hpre, hc'⟩ := ih m1 m' e h
      refine ⟨c :: pre, c', post, by rw [hsplit, List.cons_append], ?_, hc'⟩
      simp only [applyChangeSet, hA]
      exact hpre

/-- Counterexample to C3 as stated: a ChangeSet with a duplicate CREATE of
id 1 fails when applied to the fresh store, yet the in-memory manifest is
not left unchanged — the first CREATE of the failed set remains applied. -/
theorem c3_counterexample :
    (addChanges OpenManifestFileFresh
      [⟨1, 0, 0, []⟩, ⟨1, 0, 0, []⟩]).2 = some (.tableExists 1) ∧
    (addChanges OpenManifestFileFresh
      [⟨1, 0, 0, []⟩, ⟨1, 0, 0, []⟩]).1.manifest ≠
        OpenManifestFileFresh.manifest ∧
    (addChanges OpenManifestFileFresh
      [⟨1, 0, 0, []⟩, ⟨1, 0, 0, []⟩]).1.manifest.Tables.lookup 1 =
        some ⟨0, []⟩ := by
  refine ⟨by decide, by decide, by decide⟩

/-- C3 amended: when applying a ChangeSet fails, the whole set is rejected
for the durable log (the error surfaces and no frame is appended to the
file), but the in-memory manifest keeps the successfully applied prefix of
the set: the changes before the failing one remain applied. -/
theorem c3_changeset_atomicity_amended (mf : ManifestFile)
    (cs : List pb.ManifestChange) (mf' : ManifestFile) (e : Err)
    (h : addChanges mf cs = (mf', some e)) :
    mf'.fileBytes = mf.fileBytes ∧
    ∃ pre c post, cs = pre ++ c :: post ∧
      applyChangeSet mf.manifest pre = (mf'.manifest, none) ∧
      applyManifestChange mf'.manifest c = (mf'.manifest, some e) := by
  rcases hA : applyChangeSet mf.manifest cs with ⟨m', e1⟩
  cases e1 with
  | none =>
    rw [addChanges_ok mf cs m' hA] at h
    simp at h
  | some eA =>
    rw [addChanges_err mf cs m' eA hA] at h
    injection h with h1 h2
    injection h2 with h2
    subst h1
    rw [h2] at hA
    exact ⟨rfl, applyChangeSet_err_decomp cs mf.manifest m' e hA⟩

/-- Witness for the amended C3 at the duplicate-CREATE counterexample. -/
theorem c3_changeset_atomicity_amended_witness :
    (addChanges OpenManifestFileFresh
      [⟨1, 0, 0, []⟩, ⟨1, 0, 0, []⟩]).1.fileBytes =
      OpenManifestFileFresh.fileBytes ∧
    ∃ pre c post,
      ([⟨1, 0, 0, []⟩, ⟨1, 0, 0, []⟩] : List pb.ManifestChange) =
        pre ++ c :: post ∧
      applyChangeSet OpenManifestFileFresh.manifest pre =
        ((addChanges OpenManifestFileFresh
          [⟨1, 0, 0, []⟩, ⟨1, 0, 0, []⟩]).1.manifest, none) ∧
      applyManifestChange (addChanges OpenManifestFileFresh
          [⟨1, 0, 0, []⟩, ⟨1, 0, 0, []⟩]).1.manifest c =
        ((addChanges OpenManifestFileFresh
          [⟨1, 0, 0, []⟩, ⟨1, 0, 0, []⟩]).1.manifest,
          some (.tableExists 1)) :=
  c3_changeset_atomicity_amended OpenManifestFileFresh
    [⟨1, 0, 0, []⟩, ⟨1, 0, 0, []⟩] _ (.tableExists 1) (by rfl)

set_option maxRecDepth 40000 in
/-- C1: replaying the file produced by any successfully applied history of
well-formed CREATE/DELETE ChangeSets (of total encoded size within the
format's u32 length fields) reconstructs a manifest extensionally equal to
the in-memory one: same table map, same id set at every level, and the
Creations/Deletions counters the applied history accumulated; in
particular Scenario A replays to Tables = {2 at level 0}, Creations = 2,
Deletions = 1, Levels[0] = {2}. -/
theorem c1_manifest_roundtrip (hist : List (List pb.ManifestChange))
    (st : ManifestFile)
    (hwf : ∀ cs ∈ hist, ∀ c ∈ cs, pb.wfChange c)
    (hsz : totalEncLen hist < 2 ^ 32)
    (hrun : runAddChanges OpenManifestFileFresh hist = (st, none)) :
    (∃ mR, ReplayManifestFile st.fileBytes =
        .ok (mR, st.fileBytes.length) ∧
      (∀ id, mR.Tables.lookup id = st.manifest.Tables.lookup id) ∧
      (∀ l id, id ∈ levelSet mR l ↔ id ∈ levelSet st.manifest l) ∧
      mR.Creations = st.manifest.Creations ∧
      mR.Deletions = st.manifest.Deletions) ∧
    ((runAddChanges OpenManifestFileFresh scenarioA).2 = none ∧
      ∃ mA offA, ReplayManifestFile
          (runAddChanges OpenManifestFileFresh scenarioA).1.fileBytes =
          .ok (mA, offA) ∧
        mA.Tables.lookup 2 = some ⟨0, []⟩ ∧
        mA.Tables.lookup 1 = none ∧
        mA.Creations = 2 ∧ mA.Deletions = 1 ∧ levelSet mA 0 = [2]) := by
  constructor
  · have hg := runAddChanges_good hist OpenManifestFileFresh st hwf
      (by
        show (encodeCS (asChanges OpenManifestFileFresh.manifest)).length +
          totalEncLen hist < 2 ^ 32
        rw [show (encodeCS (asChanges
          OpenManifestFileFresh.manifest)).length = 0 from rfl]
        omega) goodFile_fresh hrun
    obtain ⟨mR, hrep, e1, e2, e3, e4⟩ := goodFile_replay st hg.1
    exact ⟨mR, hrep, e1, e2, e3, e4⟩
  · exact ⟨by rfl, ⟨[[2]], [(2, ⟨0, []⟩)], 2, 1⟩, 91, by rfl, by rfl,
      by rfl, by rfl, by rfl, by rfl⟩

set_option maxRecDepth 40000 in
/-- Witness for C1 at the Scenario A history. -/
theorem c1_manifest_roundtrip_witness :
    ((runAddChanges OpenManifestFileFresh scenarioA).2 = none ∧
      ∃ mA offA, ReplayManifestFile
          (runAddChanges OpenManifestFileFresh scenarioA).1.fileBytes =
          .ok (mA, offA) ∧
        mA.Tables.lookup 2 = some ⟨0, []⟩ ∧
        mA.Tables.lookup 1 = none ∧
        mA.Creations = 2 ∧ mA.Deletions = 1 ∧ levelSet mA 0 = [2]) :=
  (c1_manifest_roundtrip scenarioA
    (runAddChanges OpenManifestFileFresh scenarioA).1
    (by decide) (by decide) (by rfl)).2

theorem OpenManifestFileExisting_ok (bs : List Nat) (m : Manifest)
    (off : Nat) (h : ReplayManifestFile bs = .ok (m, off)) :
    OpenManifestFileExisting bs =
      .ok (⟨m, bs.take off⟩, (bs.take off).length) := by
  simp [OpenManifestFileExisting, h]

/-- C2: replay of a stream with a valid header and well-formed frames stops
cleanly when the stream ends at a frame boundary or inside the 8-byte
length+crc prefix, returning the manifest of the complete frames and the
offset where the incomplete prefix starts; a payload shorter than the
length prefix promises is an error; and opening an existing file truncates
it to the returned offset and positions at end of file. -/
theorem c2_replay_truncation (css : List (List pb.ManifestChange))
    (m' : Manifest)
    (hcss : ∀ cs ∈ css, (∀ c ∈ cs, pb.wfChange c) ∧
      (encodeCS cs).length < 2 ^ 32)
    (happly : runChangeSets createNewManifest css = (m', none)) :
    (∀ tail : List Nat, tail.length < 8 →
      ReplayManifestFile (magicHeader ++ (framesOf css ++ tail)) =
        .ok (m', 8 + (framesOf css).length)) ∧
    (∀ lenv crcv (p : List Nat), lenv < 2 ^ 32 → p.length < lenv →
      ReplayManifestFile (magicHeader ++ (framesOf css ++
        (beEnc 4 lenv ++ (beEnc 4 crcv ++ p)))) =
          .error .truncatedPayload) ∧
    (∀ tail : List Nat, tail.length < 8 →
      OpenManifestFileExisting (magicHeader ++ (framesOf css ++ tail)) =
        .ok (⟨m', magicHeader ++ framesOf css⟩,
          (magicHeader ++ framesOf css).length)) := by
  have hok : ∀ tail : List Nat, tail.length < 8 →
      ReplayManifestFile (magicHeader ++ (framesOf css ++ tail)) =
        .ok (m', 8 + (framesOf css).length) := by
    intro tail htail
    rw [ReplayManifestFile_frames css tail hcss, happly]
    show replayAux (tail.length + 1) m' (8 + (framesOf css).length) tail = _
    simp only [replayAux]
    rw [if_pos htail]
  refine ⟨hok, ?_, ?_⟩
  · intro lenv crcv p hL hp
    rw [ReplayManifestFile_frames css _ hcss, happly]
    show replayAux ((beEnc 4 lenv ++ (beEnc 4 crcv ++ p)).length + 1) m'
      (8 + (framesOf css).length) _ = _
    have hlen : (beEnc 4 lenv ++ (beEnc 4 crcv ++ p)).length =
        8 + p.length := by
      simp [beEnc_length]
      omega
    rw [hlen]
    exact replayAux_short_payload m' (8 + (framesOf css).length) lenv crcv p
      hL hp (8 + p.length)
  · intro tail htail
    have hassoc : magicHeader ++ (framesOf css ++ tail) =
        (magicHeader ++ framesOf css) ++ tail := by
      rw [List.append_assoc]
    have hlen : (magicHeader ++ framesOf css).length =
        8 + (framesOf css).length := by
      rw [List.length_append, magicHeader_length]
    have htake : (magicHeader ++ (framesOf css ++ tail)).take
        (8 + (framesOf css).length) = magicHeader ++ framesOf css := by
      rw [hassoc]
      exact take_append_of_length _ _ _ hlen
    rw [OpenManifestFileExisting_ok _ _ _ (hok tail htail), htake]

/-- Witness for C2 at a one-frame stream with a 3-byte trailing fragment
and a frame promising 5 payload bytes but providing 1. -/
theorem c2_replay_truncation_witness :
    ReplayManifestFile (magicHeader ++
        (framesOf [[⟨1, 0, 0, []⟩]] ++ [9, 9, 9])) =
      .ok (⟨[[1]], [(1, ⟨0, []⟩)], 1, 0⟩,
        8 + (framesOf [[⟨1, 0, 0, []⟩]]).length) ∧
    ReplayManifestFile (magicHeader ++ (framesOf [[⟨1, 0, 0, []⟩]] ++
        (beEnc 4 5 ++ (beEnc 4 0 ++ [7])))) = .error .truncatedPayload ∧
    OpenManifestFileExisting (magicHeader ++
        (framesOf [[⟨1, 0, 0, []⟩]] ++ [9, 9, 9])) =
      .ok (⟨⟨[[1]], [(1, ⟨0, []⟩)], 1, 0⟩,
          magicHeader ++ framesOf [[⟨1, 0, 0, []⟩]]⟩,
        (magicHeader ++ framesOf [[⟨1, 0, 0, []⟩]]).length) := by
  have h := c2_replay_truncation [[⟨1, 0, 0, []⟩]]
    ⟨[[1]], [(1, ⟨0, []⟩)], 1, 0⟩ (by decide) (by decide)
  exact ⟨h.1 [9, 9, 9] (by decide), h.2.1 5 0 [7] (by decide) (by decide),
    h.2.2 [9, 9, 9] (by decide)⟩

/-- C10: AddTableMeta never surfaces the error of its internal addChanges
call — its returned error is always nil, even on a state where the same
addChanges visibly fails (here: re-adding table 1). -/
theorem c10_addtablemeta_swallows_errors :
    (∀ (mf : ManifestFile) (levelNum : Nat) (t : TableMeta),
      (AddTableMeta mf levelNum t).2 = none) ∧
    (addChanges (addChanges OpenManifestFileFresh [⟨1, 0, 0, []⟩]).1
      [newCreateChange 1 0 []]).2 = some (.tableExists 1) ∧
    (AddTableMeta (addChanges OpenManifestFileFresh [⟨1, 0, 0, []⟩]).1
      0 ⟨1, []⟩).2 = none := by
  exact ⟨fun mf levelNum t => rfl, by decide, rfl⟩

end file

namespace lsm

theorem flushLoop_none_eq {ε : Type} (flushRes : memTable → Option ε) :
    ∀ (l fl : List memTable), flushLoop flushRes l = (fl, none) → fl = l := by
  intro l
  induction l with
  | nil =>
    intro fl h
    simp [flushLoop] at h
    exact h
  | cons mt rest ih =>
    intro fl h
    simp only [flushLoop] at h
    cases hR : flushRes mt with
    | some e => rw [hR] at h; simp at h
    | none =>
      rw [hR] at h
      rcases hL : flushLoop flushRes rest with ⟨fl', r⟩
      rw [hL] at h
      simp only at h
      injection h with h1 h2
      subst h2
      rw [← h1, ih fl' hL]

theorem flushLoop_all_none {ε : Type} (flushRes : memTable → Option ε)
    (l : List memTable) (h : ∀ x ∈ l, flushRes x = none) :
    flushLoop flushRes l = (l, none) := by
  induction l with
  | nil => rfl
  | cons mt rest ih =>
    simp only [flushLoop]
    rw [h mt (by simp), ih (fun x hx => h x (by simp [hx]))]

theorem flushLoop_first_err {ε : Type} (flushRes : memTable → Option ε)
    (pre : List memTable) (mt : memTable) (post : List memTable) (e : ε)
    (hpre : ∀ x ∈ pre, flushRes x = none) (hmt : flushRes mt = some e) :
    flushLoop flushRes (pre ++ mt :: post) = (pre, some e) := by
  induction pre with
  | nil =>
    simp only [List.nil_append, flushLoop]
    rw [hmt]
  | cons x pre ih =>
    have hih := ih (fun y hy => hpre y (by simp [hy]))
    simp only [List.cons_append, flushLoop, hpre x (by simp),
      List.append_eq, hih]

/-- C4: the engine's write surface.  On an error-free Set, every queued
immutable (including one sealed during this call) has been flushed in
queue order (oldest first) and the immutable queue is empty on return; on
a flush failure, Set surfaces that error, the queue is left as-is, and
only the prefix before the failing memtable was flushed. -/
theorem c4_set_write_surface {ε : Type} (opt : Nat) (st : LSM) (esz : Nat)
    (setRes : Option ε) (flushRes : memTable → Option ε) :
    ((Set opt st esz setRes flushRes).2.1 = none →
      setRes = none ∧
      (Set opt st esz setRes flushRes).1.immutables = [] ∧
      (Set opt st esz setRes flushRes).2.2 =
        (if opt < st.mem.walSize + esz then st.immutables ++ [st.mem]
         else st.immutables)) ∧
    (∀ (pre : List memTable) (mt : memTable) (post : List memTable) (e : ε),
      setRes = none →
      (if opt < st.mem.walSize + esz then st.immutables ++ [st.mem]
        else st.immutables) = pre ++ mt :: post →
      (∀ x ∈ pre, flushRes x = none) → flushRes mt = some e →
      (Set opt st esz setRes flushRes).2.1 = some e ∧
      (Set opt st esz setRes flushRes).1.immutables =
        (if opt < st.mem.walSize + esz then st.immutables ++ [st.mem]
         else st.immutables) ∧
      (Set opt st esz setRes flushRes).2.2 = pre) := by
  constructor
  · intro herr
    cases hs : setRes with
    | some e =>
      exfalso
      subst hs
      by_cases hseal : opt < st.mem.walSize + esz <;>
        simp [Set, hseal] at herr
    | none =>
      subst hs
      by_cases hseal : opt < st.mem.walSize + esz
      · rcases hF : flushLoop flushRes (st.immutables ++ [st.mem])
          with ⟨fl, er⟩
        cases er with
        | some e =>
          exfalso
          simp [Set, hseal, hF] at herr
        | none =>
          have hfl : fl = st.immutables ++ [st.mem] :=
            flushLoop_none_eq flushRes _ fl hF
          refine ⟨rfl, ?_, ?_⟩ <;> simp [Set, hseal, hF, hfl]
      · rcases hF : flushLoop flushRes st.immutables with ⟨fl, er⟩
        cases er with
        | some e =>
          exfalso
          simp [Set, hseal, hF] at herr
        | none =>
          have hfl : fl = st.immutables := flushLoop_none_eq flushRes _ fl hF
          refine ⟨rfl, ?_, ?_⟩ <;> simp [Set, hseal, hF, hfl]
  · intro pre mt post e hset hQ hpre hmt
    subst hset
    by_cases hseal : opt < st.mem.walSize + esz
    · rw [if_pos hseal] at hQ
      have hF : flushLoop flushRes (st.immutables ++ [st.mem]) =
          (pre, some e) := by
        rw [hQ]
        exact flushLoop_first_err flushRes pre mt post e hpre hmt
      refine ⟨?_, ?_, ?_⟩ <;> simp [Set, hseal, hF]
    · rw [if_neg hseal] at hQ
      have hF : flushLoop flushRes st.immutables = (pre, some e) := by
        rw [hQ]
        exact flushLoop_first_err flushRes pre mt post e hpre hmt
      refine ⟨?_, ?_, ?_⟩ <;> simp [Set, hseal, hF]

/-- Witness for C4: one pending immutable, no seal; a clean flush empties
the queue, a failing flush keeps it and reports the error. -/
theorem c4_set_write_surface_witness :
    (Set 10 ⟨⟨1, 0⟩, [⟨0, 5⟩], 1⟩ 3 (none : Option Nat)
      (fun _ => none)).1.immutables = [] ∧
    (Set 10 ⟨⟨1, 0⟩, [⟨0, 5⟩], 1⟩ 3 (none : Option Nat)
      (fun _ => none)).2.2 = [⟨0, 5⟩] ∧
    (Set 10 ⟨⟨1, 0⟩, [⟨0, 5⟩], 1⟩ 3 (none : Option Nat)
      (fun mt => if mt.fid = 0 then some 7 else none)).2.1 = some 7 ∧
    (Set 10 ⟨⟨1, 0⟩, [⟨0, 5⟩], 1⟩ 3 (none : Option Nat)
      (fun mt => if mt.fid = 0 then some 7 else none)).1.immutables =
        [⟨0, 5⟩] ∧
    (Set 10 ⟨⟨1, 0⟩, [⟨0, 5⟩], 1⟩ 3 (none : Option Nat)
      (fun mt => if mt.fid = 0 then some 7 else none)).2.2 = [] := by
  have h1 := (c4_set_write_surface 10 ⟨⟨1, 0⟩, [⟨0, 5⟩], 1⟩ 3
    (none : Option Nat) (fun _ => none)).1 (by decide)
  have h2 := (c4_set_write_surface 10 ⟨⟨1, 0⟩, [⟨0, 5⟩], 1⟩ 3
    (none : Option Nat) (fun mt => if mt.fid = 0 then some 7 else none)).2
    [] ⟨0, 5⟩ [] 7 rfl (by decide) (by simp) (by decide)
  refine ⟨h1.2.1, ?_, h2.1, ?_, h2.2.2⟩
  · rw [h1.2.2]
    decide
  · rw [h2.2.1]
    decide

theorem foldl_max_init_le (l : List Nat) :
    ∀ a : Nat, a ≤ l.foldl (fun p q => max p q) a := by
  induction l with
  | nil => intro a; simp
  | cons x l ih =>
    intro a
    simp only [List.foldl_cons]
    exact le_trans (le_max_left a x) (ih (max a x))

theorem mem_le_foldl_max (l : List Nat) :
    ∀ (a x : Nat), x ∈ l → x ≤ l.foldl (fun p q => max p q) a := by
  induction l with
  | nil => intro a x h; simp at h
  | cons y l ih =>
    intro a x h
    rcases List.mem_cons.mp h with h | h
    · subst h
      simp only [List.foldl_cons]
      exact le_trans (le_max_right a x) (foldl_max_init_le l (max a x))
    · simp only [List.foldl_cons]
      exact ih (max a y) x h

/-- C8: recovery replays the discovered WAL file ids in ascending order,
keeps only the memtables that are non-empty after replay, advances the
allocator to the maximum of the discovered ids and the previously-known
maximum, and the fresh active memtable's id is that maximum plus one —
strictly above every recovered id and never colliding with one. -/
theorem c8_recovery_allocation (prevMax : Nat) (walFids : List Nat)
    (sizeOf : Nat → Nat) :
    (recovery prevMax walFids sizeOf).1 =
      walFids.foldl (fun a b => max a b) prevMax + 1 ∧
    (recovery prevMax walFids sizeOf).2.2 =
      (recovery prevMax walFids sizeOf).1 ∧
    (recovery prevMax walFids sizeOf).2.1 =
      (List.insertionSort (· ≤ ·) walFids).filter
        (fun fid => sizeOf fid != 0) ∧
    List.Sorted (· ≤ ·) (recovery prevMax walFids sizeOf).2.1 ∧
    (∀ f ∈ walFids, f < (recovery prevMax walFids sizeOf).1) ∧
    prevMax < (recovery prevMax walFids sizeOf).1 ∧
    (recovery prevMax walFids sizeOf).1 ∉ walFids ∧
    (∀ f ∈ (recovery prevMax walFids sizeOf).2.1,
      sizeOf f ≠ 0 ∧ f ∈ walFids) := by
  refine ⟨rfl, rfl, rfl, ?_, ?_, ?_, ?_, ?_⟩
  · show List.Sorted (· ≤ ·)
      ((List.insertionSort (· ≤ ·) walFids).filter _)
    exact List.Pairwise.sublist (List.filter_sublist _)
      (List.sorted_insertionSort (· ≤ ·) walFids)
  · intro f hf
    show f < walFids.foldl (fun a b => max a b) prevMax + 1
    have := mem_le_foldl_max walFids prevMax f hf
    omega
  · show prevMax < walFids.foldl (fun a b => max a b) prevMax + 1
    have := foldl_max_init_le walFids prevMax
    omega
  · intro hmem
    have h1 := mem_le_foldl_max walFids prevMax
      (walFids.foldl (fun a b => max a b) prevMax + 1) hmem
    omega
  · intro f hf
    have hf2 := List.mem_filter.mp hf
    constructor
    · simpa using hf2.2
    · exact (List.perm_insertionSort (· ≤ ·) walFids).mem_iff.mp hf2.1

/-- Witness for C8 on three WAL files with ids 5, 2, 9, one of them empty
after replay, and a previously-known maximum of 3. -/
theorem c8_recovery_allocation_witness :
    (recovery 3 [5, 2, 9] (fun f => f % 2)).1 = 10 ∧
    5 < (recovery 3 [5, 2, 9] (fun f => f % 2)).1 ∧
    9 < (recovery 3 [5, 2, 9] (fun f => f % 2)).1 ∧
    (recovery 3 [5, 2, 9] (fun f => f % 2)).2.1 = [5, 9] := by
  have h := c8_recovery_allocation 3 [5, 2, 9] (fun f => f % 2)
  refine ⟨?_, h.2.2.2.2.1 5 (by decide), h.2.2.2.2.1 9 (by decide), ?_⟩
  · rw [h.1]
    decide
  · rw [h.2.2.1]
    decide

theorem revFindEntry_all_none {α : Type} :
    ∀ l : List (Option α), (∀ x ∈ l, x = none) → revFindEntry l = none := by
  intro l
  induction l with
  | nil => intro h; rfl
  | cons x xs ih =>
    intro h
    simp only [revFindEntry]
    rw [ih (fun y hy => h y (by simp [hy]))]
    exact h x (by simp)

theorem revFindEntry_newest {α : Type} (pre : List (Option α)) (e : α)
    (post : List (Option α)) (hpost : ∀ x ∈ post, x = none) :
    revFindEntry (pre ++ some e :: post) = some e := by
  induction pre with
  | nil =>
    simp only [List.nil_append, revFindEntry]
    rw [revFindEntry_all_none post hpost]
  | cons x pre ih =>
    simp only [List.cons_append, revFindEntry, List.append_eq]
    rw [ih]

/-- C9: Get consults the active memtable first, then the immutable queue
from the most recently sealed entry (the tail) back to the oldest, and
only then the level manager, so a hit in a newer tier shadows older
tiers. -/
theorem c9_get_lookup_order {α : Type} (active : Option α)
    (imms : List (Option α)) (lvlRes : Option α) :
    (∀ e, active = some e → Get active imms lvlRes = some e) ∧
    (active = none → ∀ pre e post, imms = pre ++ some e :: post →
      (∀ x ∈ post, x = none) → Get active imms lvlRes = some e) ∧
    (active = none → (∀ x ∈ imms, x = none) →
      Get active imms lvlRes = lvlRes) := by
  refine ⟨?_, ?_, ?_⟩
  · intro e h
    rw [h]
    rfl
  · intro ha pre e post him hpost
    subst ha
    subst him
    simp only [Get]
    rw [revFindEntry_newest pre e post hpost]
  · intro ha hall
    subst ha
    simp only [Get]
    rw [revFindEntry_all_none imms hall]

/-- Witness for C9: an active hit shadows everything, the newest immutable
hit shadows older immutables and the level manager, and the level manager
answers only when all memtables miss. -/
theorem c9_get_lookup_order_witness :
    Get (some 3 : Option Nat) [some 9] (some 7) = some 3 ∧
    Get (none : Option Nat) [none, some 4, none] (some 7) = some 4 ∧
    Get (none : Option Nat) [none, none] (some 7) = some 7 := by
  have h1 := (c9_get_lookup_order (some 3 : Option Nat) [some 9]
    (some 7)).1 3 rfl
  have h2 := (c9_get_lookup_order (none : Option Nat) [none, some 4, none]
    (some 7)).2.1 rfl [none] 4 [none] (by rfl) (by simp)
  have h3 := (c9_get_lookup_order (none : Option Nat) [none, none]
    (some 7)).2.2 rfl (by simp)
  exact ⟨h1, h2, h3⟩

end lsm
